import Mathlib

/-!
# Verification of the vindemitor key-resolution, vault and track-selection core

Shallow embedding of `vindemitor/core/vaults.py`, `vindemitor/core/drm_manager.py`
and `vindemitor/core/track_selector.py`, together with models (taken from the
design document) of the repository modules that the sources import but that are
not part of the source tree (`core/vault.py` backends, `core/tracks`,
`core/drm/widevine.py`, `core/utilities.py`).

Key ids are modelled as `Nat` (UUIDs are opaque identifiers), content keys as
`String` (their hex form), and Python exceptions as explicit error values.
-/

namespace Vindemitor

/-- A content key value, in its hex string form. -/
abbrev Key := String

/-- A key id (UUID) modelled as an opaque natural number. -/
abbrev KID := Nat

/-- `kid.hex` of the Python UUID: an injective rendering of the key id. -/
def kidHex (k : KID) : String := Nat.repr k

/-- Replace the value of the first occurrence of `k` in an association list,
or append `(k, v)` when absent.  This is exactly a Python `dict` assignment
`m[k] = v` (dicts keep insertion order and update in place). -/
def setAssoc {α β : Type} [DecidableEq α] : List (α × β) → α → β → List (α × β)
  | [], k, v => [(k, v)]
  | (k', v') :: rest, k, v =>
      if k' = k then (k', v) :: rest else (k', v') :: setAssoc rest k v

/-- Python `dict.update`: every entry of `new` is assigned into `old` in order. -/
def dictUpdate {α β : Type} [DecidableEq α] (old new : List (α × β)) : List (α × β) :=
  new.foldl (fun acc kv => setAssoc acc kv.1 kv.2) old

/-- Association-list lookup (first occurrence wins, as in a Python dict whose
keys are unique). -/
def lookupA {α β : Type} [DecidableEq α] : List (α × β) → α → Option β
  | [], _ => none
  | (k', v') :: rest, k => if k' = k then some v' else lookupA rest k

/-- The condition `key and key.count("0") != len(key)` of
`vaults.py:26` and `drm_manager.py:121`: the key is present (non-empty) and is
not composed entirely of the digit `0` (the all-zero sentinel). -/
def realKey (k : Key) : Bool :=
  !k.isEmpty && (k.toList.count '0' != k.length)

/-- Outcome of a vault backend write: success, or one of the two signals that
the Cache Pool absorbs (`PermissionError` / `NotImplementedError`). -/
inductive WriteMode : Type
  | ok
  | permissionError
  | notImplementedError
deriving DecidableEq, Repr

/-- Modelled from the spec: a Key Cache Backend (`vindemitor/core/vault.py` is
absent from the source tree).  §6 of the design document gives the contract
`read(key_id, service) -> key|absent`, `write(service, key_id, key) -> ok`,
raising PermissionDenied or Unsupported when the operation cannot be
performed.  The backing store maps `(service, key id)` to a key; `mode`
describes how `write` behaves for this backend. -/
structure Vault : Type where
  name : String
  store : List ((String × KID) × Key)
  mode : WriteMode
deriving DecidableEq, Repr

/-- Modelled from the spec: backend `read` — lookup in the backing store. -/
def Vault.read (v : Vault) (service : String) (kid : KID) : Option Key :=
  lookupA v.store (service, kid)

/-- Modelled from the spec: backend `write` — returns the count contribution
(`1`) and the updated backend on success, or the raised signal. -/
def Vault.write (v : Vault) (service : String) (kid : KID) (key : Key) :
    Except WriteMode (Nat × Vault) :=
  match v.mode with
  | .ok => .ok (1, { v with store := setAssoc v.store (service, kid) key })
  | m => .error m

/-- The Cache Pool of `vindemitor/core/vaults.py` (class `Vaults`): a default
service name and the configured backends in priority order. -/
structure Vaults : Type where
  default_service : String
  vaults : List Vault
deriving DecidableEq, Repr

/-- `service = service or self.default_service` (`vaults.py:23,34`): a missing
or empty (falsy) service argument falls back to the default. -/
def Vaults.resolve (vs : Vaults) (service : Option String) : String :=
  match service with
  | some s => if s = "" then vs.default_service else s
  | none => vs.default_service

/-- Whether a backend holds a usable (present, non-all-zero) key. -/
def vaultHit (s : String) (kid : KID) (v : Vault) : Bool :=
  (v.read s kid).any realKey

/-- The loop of `Vaults.get_key` (`vaults.py:24-27`): first backend whose
stored key is truthy and not all zero digits; returns the key together with
the (0-based) position of the backend that supplied it. -/
def getKeyList : List Vault → String → KID → Option (Key × Nat)
  | [], _, _ => none
  | v :: rest, s, kid =>
      match v.read s kid with
      | some k =>
          if realKey k then some (k, 0)
          else (getKeyList rest s kid).map (fun p => (p.1, p.2 + 1))
      | none => (getKeyList rest s kid).map (fun p => (p.1, p.2 + 1))

/-- `Vaults.get_key` (`vaults.py:21-28`).  The Python method returns the vault
object itself; the embedding returns its position in the configured list
(vault objects are compared by identity, and the list holds distinct
objects). -/
def Vaults.get_key (vs : Vaults) (kid : KID) (service : Option String) :
    Option Key × Option Nat :=
  match getKeyList vs.vaults (vs.resolve service) kid with
  | some (k, i) => (some k, some i)
  | none => (none, none)

/-- The loop of `Vaults.add_key` (`vaults.py:36-42`): every backend except the
excluded one is written; a backend raising PermissionError or
NotImplementedError is skipped.  Returns the success count and the updated
backends. -/
def addKeyList : List Vault → String → KID → Key → Option Nat → Nat → Nat × List Vault
  | [], _, _, _, _, _ => (0, [])
  | v :: rest, s, kid, key, excl, i =>
      let t := addKeyList rest s kid key excl (i + 1)
      if excl = some i then (t.1, v :: t.2)
      else
        match v.write s kid key with
        | .ok (n, v') => (t.1 + n, v' :: t.2)
        | .error _ => (t.1, v :: t.2)

/-- `Vaults.add_key` (`vaults.py:30-42`). -/
def Vaults.add_key (vs : Vaults) (kid : KID) (key : Key) (excluding : Option Nat)
    (service : Option String) : Nat × Vaults :=
  let t := addKeyList vs.vaults (vs.resolve service) kid key excluding 0
  (t.1, { vs with vaults := t.2 })

/-- Python exceptions surfaced by the embedded code. -/
inductive PyErr : Type
  | cekNotFound (msg : String)
  | valueError (msg : String)
  | attributeError
deriving DecidableEq, Repr

/-- `Vaults.add_keys` (`vaults.py:44-55`), embedded faithfully: line 52 reads
`vault.add_keys(self.service, kid_keys)`, but `Vaults.__init__` only ever sets
`self.default_service`, so evaluating `self.service` raises `AttributeError`
on the first loop iteration — before any backend is written — and that
exception is not in the `except (PermissionError, NotImplementedError)`
clause.  With an empty backend list the loop body never runs and `0` is
returned. -/
def Vaults.add_keys (vs : Vaults) (kid_keys : List (KID × Key))
    (service : Option String) : Except PyErr Nat :=
  match vs.vaults, kid_keys, service with
  | [], _, _ => .ok 0
  | _ :: _, _, _ => .error .attributeError

/-! ## DRM manager (`vindemitor/core/drm_manager.py`) -/

/-- A notification pushed through the DRM status callbacks
(`on_pssh_init` / `on_key_found` / `on_error`, `drm_manager.py:54`). -/
inductive Event : Type
  | psshInit (scheme : String) (pssh : String)
  | keyFound (kid : String) (key : Key) (source : String) (isTrackKid : Bool)
  | errorMsg (msg : String)
deriving DecidableEq, Repr

/-- A Widevine DRM descriptor: protection header, required key ids, and the
incrementally filled key-id → content-key map (`drm.pssh`, `drm.kids`,
`drm.content_keys` as used by `drm_manager.py`). -/
structure WidevineRec : Type where
  pssh : String
  kids : List KID
  content_keys : List (KID × Key)
deriving DecidableEq, Repr

/-- A DRM descriptor attached to a track (`DRM_T = Union[ClearKey, Widevine]`,
`vindemitor/core/drm/__init__.py`).  The ClearKey payload is opaque. -/
inductive Drm : Type
  | clearKey (data : String)
  | widevine (w : WidevineRec)
deriving DecidableEq, Repr

/-- The part of a track that `prepare_drm_keys` reads: its DRM descriptor list
and its printable name (`str(track)`, used as the export key). -/
structure Track : Type where
  drm : List Drm
  name : String
deriving DecidableEq, Repr

/-- Fixed inputs of one `prepare_drm_keys` call: the two mode flags, the
device exchange (modelled from the spec, §6: `exchange(remaining_key_ids,
certificate_provider, license_provider) -> map(key_id -> content_key)`), and
the caller's key id of interest. -/
structure DrmCtx : Type where
  cdm_only : Bool
  vaults_only : Bool
  device : List KID → List (KID × Key)
  track_kid : Option KID

/-- Mutable state threaded through `prepare_drm_keys`: the descriptor's key
map, the Cache Pool, the emitted notifications, and the number of device
license exchanges performed so far. -/
structure DrmState : Type where
  cks : List (KID × Key)
  vaults : Vaults
  events : List Event
  exchanges : Nat

/-- Printable label of the backend at position `i` (`f"from {vault_used}"`). -/
def vaultLabel (vs : Vaults) (i : Option Nat) : String :=
  match i with
  | some j => match vs.vaults.get? j with
      | some v => v.name
      | none => ""
  | none => ""

/-- Outcome of one iteration of the `for kid in drm.kids` loop. -/
inductive StepOut : Type
  | next (st : DrmState)
  | breakLoop (st : DrmState)
  | raised (e : PyErr) (st : DrmState)

/-- One iteration of the per-key-id loop (`drm_manager.py:80-125`) at `kid`.
`kids` is the full `drm.kids` list (needed to compute the remaining key set
of the device exchange). -/
def drmStep (ctx : DrmCtx) (kids : List KID) (kid : KID) (st : DrmState) : StepOut :=
  if (lookupA st.cks kid).isSome then .next st
  else
    let is_track_kid := ctx.track_kid = some kid
    -- cache lookup block (lines 85-94), skipped entirely in cdm-only mode
    let afterCache : Except (PyErr × DrmState) DrmState :=
      if ctx.cdm_only then .ok st
      else
        match st.vaults.get_key kid none with
        | (some key, vused) =>
            let ev := Event.keyFound (kidHex kid) key ("from " ++ vaultLabel st.vaults vused) is_track_kid
            let t := st.vaults.add_key kid key vused none
            .ok { st with cks := setAssoc st.cks kid key
                        , vaults := t.2
                        , events := st.events ++ [ev] }
        | (none, _) =>
            if ctx.vaults_only then
              let msg := "No Vault has a Key for " ++ kidHex kid ++ " and --vaults-only was used"
              .error (.cekNotFound msg, { st with events := st.events ++ [.errorMsg msg] })
            else .ok st
    match afterCache with
    | .error (e, st') => .raised e st'
    | .ok st' =>
        -- device exchange block (lines 96-125)
        if (lookupA st'.cks kid).isNone && !ctx.vaults_only then
          let from_vaults := st'.cks
          let remaining := kids.filter (fun k => (lookupA st'.cks k).isNone)
          let newKeys := ctx.device remaining
          let evs := newKeys.map (fun kv => Event.keyFound (kidHex kv.1) kv.2 "from CDM" is_track_kid)
          let cks' := dictUpdate newKeys from_vaults
          let keys_to_cache := cks'.filter (fun kv => realKey kv.2)
          let st'' : DrmState :=
            { st' with cks := cks'
                     , events := st'.events ++ evs
                     , exchanges := st'.exchanges + 1 }
          match st''.vaults.add_keys keys_to_cache none with
          | .ok _ => .breakLoop st''
          | .error e => .raised e st''
        else .next st'

/-- Outcome of the whole per-key-id loop. -/
inductive LoopOut : Type
  | completed (st : DrmState)
  | raised (e : PyErr) (st : DrmState)

/-- The `for kid in drm.kids` loop; `break` transfers control to the code
after the loop, so it completes the loop like falling off the end. -/
def drmLoop (ctx : DrmCtx) (kids : List KID) : List KID → DrmState → LoopOut
  | [], st => .completed st
  | kid :: rest, st =>
      match drmStep ctx kids kid st with
      | .next st' => drmLoop ctx kids rest st'
      | .breakLoop st' => .completed st'
      | .raised e st' => .raised e st'

/-- The effective descriptor of `prepare_drm_keys` (`drm_manager.py:64-70`):
the `for drm in track.drm: drm = drm` loop leaves the *last* descriptor, and
a supplied `custom_drm` overrides it. -/
def effectiveDrm (track : Track) (custom : Option Drm) : Option Drm :=
  match custom with
  | some d => some d
  | none => track.drm.getLast?

/-- An export document: title → track → (key-id hex → content-key hex), the
jsonpickle structure of `drm_manager.py:133-139`. -/
abbrev ExportDoc := List (String × List (String × List (String × String)))

/-- The per-title part of the export merge:
`m.setdefault(track, {}).update(new)` on the title's track map. -/
def mergeTrackMap (track : String) (new : List (String × String)) :
    List (String × List (String × String)) → List (String × List (String × String))
  | [] => [(track, dictUpdate [] new)]
  | (tr, km) :: rest =>
      if tr = track then (tr, dictUpdate km new) :: rest
      else (tr, km) :: mergeTrackMap track new rest

/-- `keys.setdefault(title, {}).setdefault(track, {}).update(new)` followed by
writing the document back: all other titles and tracks are untouched, and the
nested key-id map of `(title, track)` is updated entry by entry. -/
def mergeExport (doc : ExportDoc) (title track : String)
    (new : List (String × String)) : ExportDoc :=
  match doc with
  | [] => [(title, [(track, dictUpdate [] new)])]
  | (t, m) :: rest =>
      if t = title then
        (t, mergeTrackMap track new m) :: rest
      else
        (t, m) :: mergeExport rest title track new

/-- The export step (`drm_manager.py:133-139`): if an export path is
configured and the descriptor resolved at least one key, read the existing
document (empty when the file does not exist), merge, and write back.
Returns the document written, or `none` when nothing is written. -/
def exportStep (configured : Bool) (file : Option ExportDoc) (title track : String)
    (cks : List (KID × Key)) : Option ExportDoc :=
  if configured && !cks.isEmpty then
    some (mergeExport (file.getD []) title track (cks.map (fun kv => (kidHex kv.1, kv.2))))
  else none

/-- Result of a `prepare_drm_keys` call: notifications emitted, final Cache
Pool, number of device exchanges, the export document written (if any), and
the returned descriptor or raised exception. -/
structure PrepResult : Type where
  events : List Event
  vaults : Vaults
  exchanges : Nat
  written : Option ExportDoc
  result : Except PyErr (Option WidevineRec)

/-- `DRMManager.prepare_drm_keys` (`drm_manager.py:57-141`).  `cdmPresent`
models `isinstance(self.cdm, WidevineCdm)`; `exportCfg`/`exportFile` model
the export path and the current contents of the export file; `titleName` is
`str(self.title)`. -/
def prepare_drm_keys (cdmPresent : Bool) (ctx : DrmCtx) (vs : Vaults)
    (exportCfg : Bool) (exportFile : Option ExportDoc) (titleName : String)
    (track : Track) (custom : Option Drm) : PrepResult :=
  match effectiveDrm track custom with
  | none =>
      { events := [], vaults := vs, exchanges := 0, written := none, result := .ok none }
  | some (.clearKey _) =>
      { events := [], vaults := vs, exchanges := 0, written := none, result := .ok none }
  | some (.widevine w) =>
      if !cdmPresent then
        { events := [], vaults := vs, exchanges := 0, written := none
        , result := .error (.valueError "CDM is not") }
      else
        let st0 : DrmState :=
          { cks := w.content_keys, vaults := vs
          , events := [.psshInit "Widevine" w.pssh], exchanges := 0 }
        match drmLoop ctx w.kids w.kids st0 with
        | .raised e st =>
            { events := st.events, vaults := st.vaults, exchanges := st.exchanges
            , written := none, result := .error e }
        | .completed st =>
            match ctx.track_kid with
            | some tk =>
                if (lookupA st.cks tk).isNone then
                  let msg := "No Content Key for KID " ++ kidHex tk ++ " was returned"
                  { events := st.events ++ [.errorMsg msg], vaults := st.vaults
                  , exchanges := st.exchanges, written := none
                  , result := .error (.cekNotFound msg) }
                else
                  { events := st.events, vaults := st.vaults, exchanges := st.exchanges
                  , written := exportStep exportCfg exportFile titleName track.name st.cks
                  , result := .ok (some { w with content_keys := st.cks }) }
            | none =>
                { events := st.events, vaults := st.vaults, exchanges := st.exchanges
                , written := exportStep exportCfg exportFile titleName track.name st.cks
                , result := .ok (some { w with content_keys := st.cks }) }

/-! ## Track selector (`vindemitor/core/track_selector.py`) -/

/-- A video track, with the attributes the selector reads.  `id` is the track
identity; absent attribute values are `none`. -/
structure Video : Type where
  id : Nat
  codec : Option String
  range : Option String
  bitrate : Option Nat
  language : String
  height : Option Nat
  width : Option Nat
deriving DecidableEq, Repr

/-- An audio track, with the attributes the selector reads.  Channel counts
are rationals (`5.1`, `6.0`, …). -/
structure Audio : Type where
  id : Nat
  codec : Option String
  bitrate : Option Nat
  channels : Option ℚ
  descriptive : Bool
  language : String
deriving DecidableEq, Repr

/-- A subtitle track, with the attributes the selector reads. -/
structure Subtitle : Type where
  id : Nat
  language : String
  forced : Bool
deriving DecidableEq, Repr

/-- The track collection of a title (`Tracks`): videos, audio, subtitles and
chapters (chapters are opaque). -/
structure TracksS : Type where
  videos : List Video
  audio : List Audio
  subtitles : List Subtitle
  chapters : List Nat
deriving DecidableEq, Repr

/-- The user constraints handed to `TrackSelector.__init__`
(`track_selector.py:14-44`).  Bitrates use `0` for the falsy "unset" value
(`if self.vbitrate:` / `if self.abitrate:` treat `None` and `0` alike);
`channels` keeps the explicit `is not None` distinction. -/
structure Criteria : Type where
  quality : List Nat
  vcodec : Option String
  acodec : Option String
  vbitrate : Nat
  abitrate : Nat
  range_ : List String
  channels : Option ℚ
  lang : List String
  v_lang : List String
  s_lang : List String
  video_only : Bool
  audio_only : Bool
  subs_only : Bool
  chapters_only : Bool
deriving DecidableEq, Repr

/-- The primary subtag of a BCP-47 language tag (`en-US` → `en`). -/
def primaryTag (l : String) : String := l.takeWhile (fun c => c ≠ '-')

/-- Modelled from the spec: `is_close_match`
(`vindemitor/core/utilities.py` is absent from the source tree).  §4.3 of the
design document: close language matching treats tags within a fixed maximum
distance — region variants of the same base language — as equivalent;
modelled as equality of the primary subtags. -/
def closeMatch (l : String) (langs : List String) : Bool :=
  langs.any (fun l' => primaryTag l = primaryTag l')

/-- Modelled from the spec: `Tracks.by_language` with no per-language cap
(the `tracks` module is absent from the source tree).  §4.3 step 2 describes a
plain language *filter* for video tracks: keep the tracks whose language
closely matches one of the requested languages. -/
def byLanguageAll {α : Type} (getLang : α → String) (ts : List α)
    (langs : List String) : List α :=
  ts.filter (fun t => closeMatch (getLang t) langs)

/-- Modelled from the spec: `Tracks.by_language` with `per_language=1`
(the `tracks` module is absent from the source tree).  §4.3 step 5: the audio
language filter is "capped at one track per language": for each requested
language in order, the first closely-matching track is kept. -/
def byLanguagePer1 {α : Type} (getLang : α → String) (ts : List α)
    (langs : List String) : List α :=
  langs.flatMap (fun l => (ts.filter (fun t => closeMatch (getLang t) [l])).take 1)

/-- Height-or-width resolution match: the track's height equals the requested
resolution, or its width converted through the 16:9 canvas assumption does
(`int(t.width * (9 / 16)) == resolution`, `track_selector.py:78`). -/
def resMatches (q : Nat) (v : Video) : Bool :=
  v.height == some q ||
    (match v.width with
     | some w => (w * 9) / 16 == q
     | none => false)

/-- Modelled from the spec: `Tracks.by_resolutions` (the `tracks` module is
absent from the source tree).  §4.3 step 3 narrows the video candidates to
those matching a requested quality (height, or 16:9-converted width),
collected per requested resolution in order, and never selects down to empty
when the criteria cannot be satisfied (the candidate set is kept unchanged
when nothing matches), which also realizes the idempotence property of §8. -/
def byResolutions (quality : List Nat) (vids : List Video) : List Video :=
  let sel := quality.flatMap (fun q => vids.filter (resMatches q))
  if sel.isEmpty then vids else sel

/-- Truthiness of the `resolution` loop variable of `track_selector.py:67`
(`None` and `0` are falsy in Python). -/
def truthyQ : Option Nat → Bool
  | none => false
  | some n => n != 0

/-- The per-track condition of the resolution/range cross product
(`track_selector.py:73-81`). -/
def matchPair (res : Option Nat) (rng : Option String) (v : Video) : Bool :=
  (!truthyQ res && !rng.isSome) ||
    ((!truthyQ res ||
        (match res with
         | some q => resMatches q v
         | none => false)) &&
      (!rng.isSome || v.range == rng))

/-- `product(self.quality or [None], self.range_ or [None])`
(`track_selector.py:67`). -/
def pairsOf (quality : List Nat) (range_ : List String) :
    List (Option Nat × Option String) :=
  (if quality.isEmpty then [none] else quality.map some).flatMap
    (fun q => (if range_.isEmpty then [none] else range_.map some).map (fun r => (q, r)))

/-- The resolution/range cross-product pass (`track_selector.py:65-86`): for
each (quality, range) pair pick the first matching video (`next(..., None)`
drops pairs with no match), and keep the pre-existing candidate set when the
whole cross product matched nothing (`... or tracks.videos`). -/
def resolutionRangePass (quality : List Nat) (range_ : List String)
    (vids : List Video) : List Video :=
  let picks := (pairsOf quality range_).filterMap
    (fun pr => vids.find? (matchPair pr.1 pr.2))
  if picks.isEmpty then vids else picks

/-- The video passes of `TrackSelector.select` (`track_selector.py:51-86`),
in source order: codec, dynamic range, bitrate, language, resolution list,
resolution/range cross product. -/
def selectVideoPasses (c : Criteria) (vids : List Video) : List Video :=
  let v1 := if c.vcodec.isSome then vids.filter (fun x => x.codec == c.vcodec) else vids
  let v2 := if !c.range_.isEmpty then
      v1.filter (fun x =>
        match x.range with
        | some r => c.range_.contains r
        | none => false)
    else v1
  let v3 := if c.vbitrate != 0 then
      v2.filter (fun x =>
        match x.bitrate with
        | some b => b / 1000 == c.vbitrate
        | none => false)
    else v2
  let vlangs := if c.v_lang.isEmpty then c.lang else c.v_lang
  let v4 := if !vlangs.isEmpty && !vlangs.contains "all" then
      byLanguageAll Video.language v3 vlangs
    else v3
  let v5 := if !c.quality.isEmpty then byResolutions c.quality v4 else v4
  resolutionRangePass c.quality c.range_ v5

/-- The subtitle passes of `TrackSelector.select` (`track_selector.py:88-90`):
an optional language filter, then the forced-subtitle filter (non-forced
subtitles are kept unconditionally; forced ones only when their language
closely matches the requested audio language range, empty when unset). -/
def selectSubtitlePasses (c : Criteria) (subs : List Subtitle) : List Subtitle :=
  let s1 := if !c.s_lang.isEmpty && !c.s_lang.contains "all" then
      subs.filter (fun x => closeMatch x.language c.s_lang)
    else subs
  s1.filter (fun x => !x.forced || closeMatch x.language c.lang)

/-- The audio passes of `TrackSelector.select` (`track_selector.py:92-104`),
all guarded by `if tracks.audio:`: descriptive exclusion, codec, bitrate,
channel count (both sides rounded up to whole channels), language capped at
one per language. -/
def selectAudioPasses (c : Criteria) (auds : List Audio) : List Audio :=
  if auds.isEmpty then auds
  else
    let a1 := auds.filter (fun x => !x.descriptive)
    let a2 := if c.acodec.isSome then a1.filter (fun x => x.codec == c.acodec) else a1
    let a3 := if c.abitrate != 0 then
        a2.filter (fun x =>
          match x.bitrate with
          | some b => b / 1000 == c.abitrate
          | none => false)
      else a2
    let a4 := match c.channels with
      | some ch => a3.filter (fun x =>
          match x.channels with
          | some xc => Int.ceil xc == Int.ceil ch
          | none => false)
      | none => a3
    if !c.lang.isEmpty && !c.lang.contains "all" then
      byLanguagePer1 Audio.language a4 c.lang
    else a4

/-- The in-place effect of `TrackSelector.select` on `title.tracks`: the
function binds `tracks = title.tracks` and narrows its `videos`, `subtitles`
and `audio` attributes of that same object in place (`track_selector.py:48`,
`60`, `65`, `90`, `93-104`).  `isME` is `isinstance(title, (Movie, Episode))`,
which guards the video and subtitle passes. -/
def selectTracks (c : Criteria) (isME : Bool) (t : TracksS) : TracksS :=
  let t1 := if isME then
      { t with videos := selectVideoPasses c t.videos
             , subtitles := selectSubtitlePasses c t.subtitles }
    else t
  { t1 with audio := selectAudioPasses c t1.audio }

/-- The value returned by `TrackSelector.select` (`track_selector.py:106-118`):
the narrowed collection itself, or — when an only-flag is set — a fresh
collection holding exactly the corresponding already-filtered kinds. -/
def selectResult (c : Criteria) (isME : Bool) (t : TracksS) : TracksS :=
  let m := selectTracks c isME t
  if c.video_only || c.audio_only || c.subs_only || c.chapters_only then
    { videos := if c.video_only then m.videos else []
    , audio := if c.audio_only then m.audio else []
    , subtitles := if c.subs_only then m.subtitles else []
    , chapters := if c.chapters_only then m.chapters else [] }
  else m

/-- A full `select(title)` call: the returned collection together with the
state of `title.tracks` after the call (the same object, mutated in place). -/
def selectRun (c : Criteria) (isME : Bool) (t : TracksS) : TracksS × TracksS :=
  (selectResult c isME t, selectTracks c isME t)

/-! ## Lemmas about the Cache Pool -/

theorem getKeyList_eq_none {l : List Vault} {s : String} {kid : KID} :
    getKeyList l s kid = none ↔ ∀ v ∈ l, vaultHit s kid v = false := by
  induction l with
  | nil => simp [getKeyList]
  | cons v rest ih =>
    simp only [getKeyList]
    cases hv : v.read s kid with
    | none =>
      simp [Option.map_eq_none', ih, List.forall_mem_cons, vaultHit, hv]
    | some k =>
      by_cases hr : realKey k
      · simp [hr, List.forall_mem_cons, vaultHit, hv]
      · simp [hr, Option.map_eq_none', ih, List.forall_mem_cons, vaultHit, hv]

theorem getKeyList_eq_some {l : List Vault} {s : String} {kid : KID} {k : Key} {i : Nat} :
    getKeyList l s kid = some (k, i) →
      ∃ v, l.get? i = some v ∧ v.read s kid = some k ∧ realKey k = true ∧
        ∀ j, j < i → ∀ w, l.get? j = some w → vaultHit s kid w = false := by
  induction l generalizing i with
  | nil => intro h; simp [getKeyList] at h
  | cons v rest ih =>
    intro h
    simp only [getKeyList] at h
    cases hv : v.read s kid with
    | none =>
      simp only [hv] at h
      rcases Option.map_eq_some'.mp h with ⟨⟨k₂, i₂⟩, hrec, hpair⟩
      simp only [Prod.mk.injEq] at hpair
      obtain ⟨hk, hi⟩ := hpair
      subst hk; subst hi
      rcases ih hrec with ⟨w, hw, hread, hreal, hpre⟩
      refine ⟨w, hw, hread, hreal, ?_⟩
      intro j hj u hu
      cases j with
      | zero =>
        injection hu with hu'
        subst hu'
        simp [vaultHit, hv]
      | succ j' =>
        exact hpre j' (Nat.lt_of_succ_lt_succ hj) u hu
    | some k' =>
      simp only [hv] at h
      by_cases hr : realKey k'
      · rw [if_pos hr] at h
        injection h with h1
        rw [Prod.mk.injEq] at h1
        obtain ⟨hk, hi⟩ := h1
        subst hk; subst hi
        exact ⟨v, rfl, hv, hr, fun j hj => absurd hj (Nat.not_lt_zero j)⟩
      · rw [if_neg hr] at h
        rcases Option.map_eq_some'.mp h with ⟨⟨k₂, i₂⟩, hrec, hpair⟩
        simp only [Prod.mk.injEq] at hpair
        obtain ⟨hk, hi⟩ := hpair
        subst hk; subst hi
        rcases ih hrec with ⟨w, hw, hread, hreal, hpre⟩
        refine ⟨w, hw, hread, hreal, ?_⟩
        intro j hj u hu
        cases j with
        | zero =>
          injection hu with hu'
          subst hu'
          simp [vaultHit, hv, hr]
        | succ j' =>
          exact hpre j' (Nat.lt_of_succ_lt_succ hj) u hu

/-- **C2.** `Vaults.get_key` iterates the backends in configured priority
order and returns the first `(key, vault)` pair whose stored key exists and
is not composed entirely of zero digits (`vaultHit`); a stored all-zero key
is skipped as if absent; if no backend holds such a key the result is
`(None, None)`. -/
theorem vaults_get_key_priority (vs : Vaults) (kid : KID) (service : Option String) :
    (vs.get_key kid service = (none, none) ↔
      ∀ v ∈ vs.vaults, vaultHit (vs.resolve service) kid v = false) ∧
    (∀ k i, vs.get_key kid service = (some k, some i) →
      ∃ v, vs.vaults.get? i = some v ∧ v.read (vs.resolve service) kid = some k ∧
        realKey k = true ∧
        ∀ j, j < i → ∀ w, vs.vaults.get? j = some w →
          vaultHit (vs.resolve service) kid w = false) := by
  constructor
  · unfold Vaults.get_key
    cases hg : getKeyList vs.vaults (vs.resolve service) kid with
    | none => simpa using getKeyList_eq_none.mp hg
    | some p =>
      refine iff_of_false (by simp) (fun hall => ?_)
      simp [getKeyList_eq_none.mpr hall] at hg
  · intro k i h
    unfold Vaults.get_key at h
    cases hg : getKeyList vs.vaults (vs.resolve service) kid with
    | none => simp [hg] at h
    | some p =>
      obtain ⟨pk, pi⟩ := p
      simp only [hg] at h
      simp only [Prod.mk.injEq, Option.some.injEq] at h
      obtain ⟨hk, hi⟩ := h
      subst hk; subst hi
      exact getKeyList_eq_some hg

/-- The concrete Cache Pool of the C2 witness: no key, an all-zero key,
a real key, another real key. -/
def demoPoolC2 : Vaults :=
  ⟨"SVC", [⟨"B1", [], .ok⟩, ⟨"B2", [(("SVC", 5), "000")], .ok⟩,
    ⟨"B3", [(("SVC", 5), "abc")], .ok⟩, ⟨"B4", [(("SVC", 5), "zzz")], .ok⟩]⟩

/-- Witness for C2: in the pool above, the third backend (first with a real,
non-all-zero key) supplies the result. -/
theorem vaults_get_key_priority_witness :
    demoPoolC2.get_key 5 none = (some "abc", some 2) ∧
    ∃ v, demoPoolC2.vaults.get? 2 = some v ∧
      v.read (demoPoolC2.resolve none) 5 = some "abc" ∧ realKey "abc" = true ∧
      ∀ j, j < 2 → ∀ w, demoPoolC2.vaults.get? j = some w →
        vaultHit (demoPoolC2.resolve none) 5 w = false := by
  refine ⟨by decide, ?_⟩
  exact (vaults_get_key_priority demoPoolC2 5 none).2 "abc" 2 (by decide)

/-- **C4.** The claim says `Vaults.add_keys` attempts the bulk write on every
backend, absorbing PermissionError/NotImplementedError per backend and
returning the success count; the code instead evaluates the undefined
attribute `self.service` (`vaults.py:52`) and raises `AttributeError` as soon
as there is any backend, writing nothing.  Evaluation at a single writable
backend and a non-empty key map. -/
theorem vaults_add_keys_attribute_error :
    Vaults.add_keys ⟨"SVC", [⟨"B1", [], .ok⟩]⟩ [(1, "22")] none = .error .attributeError := by
  rfl

/-! ## Claims about the DRM manager -/

/-- `prepare_drm_keys` only looks at the effective descriptor and the track's
printable name: two calls agreeing on those agree entirely. -/
theorem prepare_congr (cdmPresent : Bool) (ctx : DrmCtx) (vs : Vaults)
    (exportCfg : Bool) (exportFile : Option ExportDoc) (titleName : String)
    (t1 t2 : Track) (c1 c2 : Option Drm)
    (h : effectiveDrm t1 c1 = effectiveDrm t2 c2) (hn : t1.name = t2.name) :
    prepare_drm_keys cdmPresent ctx vs exportCfg exportFile titleName t1 c1 =
      prepare_drm_keys cdmPresent ctx vs exportCfg exportFile titleName t2 c2 := by
  unfold prepare_drm_keys
  rw [h, hn]

/-- **C10.** The effective descriptor is `custom_drm` when supplied, else the
last element of `track.drm` (earlier descriptors are never resolved: the run
on `l ++ [d]` equals the run on `[d]` alone, and a supplied custom descriptor
makes the track's list irrelevant); when there is no descriptor or it is not
a Widevine one, the call returns `None` with no notification, no vault
interaction, no device exchange, no export write and no exception. -/
theorem prepare_effective_descriptor :
    (∀ (cdmPresent : Bool) (ctx : DrmCtx) (vs : Vaults) (exportCfg : Bool)
        (exportFile : Option ExportDoc) (titleName : String) (track : Track)
        (custom : Option Drm),
      (effectiveDrm track custom = none ∨
          ∃ d, effectiveDrm track custom = some (.clearKey d)) →
        prepare_drm_keys cdmPresent ctx vs exportCfg exportFile titleName track custom =
          { events := [], vaults := vs, exchanges := 0, written := none
          , result := .ok none }) ∧
    (∀ (cdmPresent : Bool) (ctx : DrmCtx) (vs : Vaults) (exportCfg : Bool)
        (exportFile : Option ExportDoc) (titleName : String) (l : List Drm) (d : Drm)
        (nm : String) (custom : Option Drm),
      prepare_drm_keys cdmPresent ctx vs exportCfg exportFile titleName ⟨l ++ [d], nm⟩ custom =
        prepare_drm_keys cdmPresent ctx vs exportCfg exportFile titleName ⟨[d], nm⟩ custom) ∧
    (∀ (cdmPresent : Bool) (ctx : DrmCtx) (vs : Vaults) (exportCfg : Bool)
        (exportFile : Option ExportDoc) (titleName : String) (track : Track) (d : Drm),
      prepare_drm_keys cdmPresent ctx vs exportCfg exportFile titleName track (some d) =
        prepare_drm_keys cdmPresent ctx vs exportCfg exportFile titleName ⟨[d], track.name⟩ none) := by
  refine ⟨?_, ?_, ?_⟩
  · intro cdmPresent ctx vs exportCfg exportFile titleName track custom h
    rcases h with h | ⟨d, h⟩ <;> simp only [prepare_drm_keys, h]
  · intro cdmPresent ctx vs exportCfg exportFile titleName l d nm custom
    refine prepare_congr _ _ _ _ _ _ _ _ _ _ ?_ rfl
    cases custom with
    | some c => rfl
    | none =>
      show (l ++ [d]).getLast? = [d].getLast?
      rw [List.getLast?_concat]
      rfl
  · intro cdmPresent ctx vs exportCfg exportFile titleName track d
    exact prepare_congr _ _ _ _ _ _ _ _ _ _ rfl rfl

/-- Witness for C10: a track whose only descriptor is a ClearKey one yields
`None` and produces no notification, vault write, exchange or export. -/
theorem prepare_effective_descriptor_witness :
    prepare_drm_keys true ⟨false, false, fun _ => [], none⟩ ⟨"S", []⟩ false none "T"
        ⟨[.clearKey "ck"], "V"⟩ none =
      { events := [], vaults := ⟨"S", []⟩, exchanges := 0, written := none
      , result := .ok none } :=
  prepare_effective_descriptor.1 true ⟨false, false, fun _ => [], none⟩ ⟨"S", []⟩
    false none "T" ⟨[.clearKey "ck"], "V"⟩ none (Or.inr ⟨"ck", rfl⟩)

/-- The C1 end-to-end scenario: one backend holding KID 10 only, a
two-key descriptor, the device returning KID 11, both modes off. -/
def prepC1 : PrepResult :=
  prepare_drm_keys true ⟨false, false, fun _ => [(11, "b1")], none⟩
    ⟨"TEST", [⟨"SQLite", [(("TEST", 10), "a1")], .ok⟩]⟩ false none "Title-1"
    ⟨[.widevine ⟨"pssh0", [10, 11], []⟩], "Video-1"⟩ none

/-- **C1.** The claim (and the design document's end-to-end scenario) says:
with one backend holding KID_A only, a two-key descriptor, and both modes
off, the broker takes KID_A from the cache, performs exactly one device
exchange for the remaining KID_B, restores the cache-found keys after it,
notifies every device-returned key, writes the non-sentinel keys back to the
Cache Pool in one bulk call and breaks the loop.  The code performs the
lookup, the single exchange, the restore and the notifications, but the bulk
write (`self.vaults.add_keys`, `drm_manager.py:123`) raises `AttributeError`
(`vaults.py:52` reads the undefined `self.service`), so the call aborts and
KID_B is never written back to the backend.  Evaluation at that scenario. -/
theorem prepare_e2e_cache_write_crash :
    prepC1.result = .error .attributeError ∧
    prepC1.exchanges = 1 ∧
    prepC1.events = [.psshInit "Widevine" "pssh0",
      .keyFound "10" "a1" "from SQLite" false,
      .keyFound "11" "b1" "from CDM" false] ∧
    prepC1.vaults = ⟨"TEST", [⟨"SQLite", [(("TEST", 10), "a1")], .ok⟩]⟩ :=
  ⟨rfl, rfl, rfl, rfl⟩

/-- The C3 scenario: one writable empty backend, track KID 21, the device
returning only KID 22. -/
def prepC3 : PrepResult :=
  prepare_drm_keys true ⟨false, false, fun _ => [(22, "c2")], some 21⟩
    ⟨"SVC2", [⟨"API", [], .ok⟩]⟩ false none "Title-3"
    ⟨[.widevine ⟨"pssh3", [21, 22], []⟩], "Video-3"⟩ none

/-- **C3.** The claim (and §7 of the design document) says `CEKNotFound` is
raised exactly when (a) vaults-only mode leaves a key id unresolved after the
cache lookup, or (b) the device exchange completes but the caller's track key
id is still unresolved after the loop.  Case (b) is broken whenever the Cache
Pool is non-empty: after the exchange completes, the bulk cache write raises
`AttributeError` (`vaults.py:52`) before the track-key check is reached, so
`AttributeError` — not `CEKNotFound` — propagates.  Evaluation at such an
input: one writable backend without the key, a device exchange returning only
the other key id. -/
theorem prepare_track_kid_check_preempted :
    prepC3.result = .error .attributeError ∧
    prepC3.exchanges = 1 ∧
    prepC3.events = [.psshInit "Widevine" "pssh3",
      .keyFound "22" "c2" "from CDM" true] :=
  ⟨rfl, rfl, rfl⟩

/-! ## Claims about the export sink -/

theorem lookupA_setAssoc_self {α β : Type} [DecidableEq α] (m : List (α × β)) (k : α) (v : β) :
    lookupA (setAssoc m k v) k = some v := by
  induction m with
  | nil => simp [setAssoc, lookupA]
  | cons p rest ih =>
    obtain ⟨k', v'⟩ := p
    by_cases h : k' = k
    · simp [setAssoc, lookupA, h]
    · simp [setAssoc, lookupA, h, ih]

theorem lookupA_setAssoc_other {α β : Type} [DecidableEq α] (m : List (α × β)) (k k₂ : α)
    (v : β) (h : k₂ ≠ k) : lookupA (setAssoc m k v) k₂ = lookupA m k₂ := by
  induction m with
  | nil => simp [setAssoc, lookupA, Ne.symm h]
  | cons p rest ih =>
    obtain ⟨k', v'⟩ := p
    by_cases hk : k' = k
    · subst hk
      simp [setAssoc, lookupA, Ne.symm h]
    · by_cases hk2 : k' = k₂ <;> simp [setAssoc, lookupA, h, hk, hk2, ih]

/-- The track map recorded for a title in an export document (`{}` when the
title is absent). -/
def titleTracks (doc : ExportDoc) (t : String) : List (String × List (String × String)) :=
  (lookupA doc t).getD []

/-- The key-id map recorded for a (title, track) pair in an export document. -/
def exportEntry (doc : ExportDoc) (t tr : String) : Option (List (String × String)) :=
  lookupA (titleTracks doc t) tr

theorem mergeTrackMap_other (track : String) (new : List (String × String))
    (m : List (String × List (String × String))) (tr' : String) (h : tr' ≠ track) :
    lookupA (mergeTrackMap track new m) tr' = lookupA m tr' := by
  induction m with
  | nil => simp [mergeTrackMap, lookupA, Ne.symm h]
  | cons p rest ih =>
    obtain ⟨tr, km⟩ := p
    by_cases htr : tr = track
    · subst htr
      simp [mergeTrackMap, lookupA, Ne.symm h]
    · by_cases htr2 : tr = tr' <;> simp [mergeTrackMap, lookupA, h, Ne.symm h, htr, htr2, ih]

theorem mergeTrackMap_self (track : String) (new : List (String × String))
    (m : List (String × List (String × String))) :
    lookupA (mergeTrackMap track new m) track =
      some (dictUpdate ((lookupA m track).getD []) new) := by
  induction m with
  | nil => simp [mergeTrackMap, lookupA]
  | cons p rest ih =>
    obtain ⟨tr, km⟩ := p
    by_cases htr : tr = track
    · subst htr
      simp [mergeTrackMap, lookupA]
    · simp [mergeTrackMap, lookupA, htr, ih]

theorem mergeExport_other_title (doc : ExportDoc) (title track : String)
    (new : List (String × String)) (t' : String) (h : t' ≠ title) :
    lookupA (mergeExport doc title track new) t' = lookupA doc t' := by
  induction doc with
  | nil => simp [mergeExport, lookupA, Ne.symm h]
  | cons p rest ih =>
    obtain ⟨t, m⟩ := p
    by_cases ht : t = title
    · subst ht
      simp [mergeExport, lookupA, Ne.symm h]
    · by_cases ht2 : t = t' <;> simp [mergeExport, lookupA, h, Ne.symm h, ht, ht2, ih]

theorem mergeExport_self_title (doc : ExportDoc) (title track : String)
    (new : List (String × String)) :
    lookupA (mergeExport doc title track new) title =
      some (mergeTrackMap track new (titleTracks doc title)) := by
  induction doc with
  | nil => simp [mergeExport, lookupA, titleTracks, mergeTrackMap]
  | cons p rest ih =>
    obtain ⟨t, m⟩ := p
    by_cases ht : t = title
    · subst ht
      simp [mergeExport, lookupA, titleTracks]
    · simp [mergeExport, lookupA, titleTracks, ht, ih]

/-- When `prepare_drm_keys` returns a descriptor, the document written is
exactly the export step applied to the returned key map. -/
theorem prepare_written_eq_exportStep (cdmPresent : Bool) (ctx : DrmCtx) (vs : Vaults)
    (exportCfg : Bool) (exportFile : Option ExportDoc) (titleName : String)
    (track : Track) (custom : Option Drm) (w : WidevineRec) :
    (prepare_drm_keys cdmPresent ctx vs exportCfg exportFile titleName track custom).result
        = .ok (some w) →
      (prepare_drm_keys cdmPresent ctx vs exportCfg exportFile titleName track custom).written
        = exportStep exportCfg exportFile titleName track.name w.content_keys := by
  unfold prepare_drm_keys
  cases heff : effectiveDrm track custom with
  | none =>
    intro hw
    exact absurd (Except.ok.inj hw) (by simp)
  | some dd =>
    cases dd with
    | clearKey s =>
      intro hw
      exact absurd (Except.ok.inj hw) (by simp)
    | widevine w0 =>
      cases cdmPresent with
      | false =>
        intro hw
        simp at hw
      | true =>
        simp only [Bool.not_true]
        rw [if_neg (by simp)]
        cases hloop : drmLoop ctx w0.kids w0.kids
            { cks := w0.content_keys, vaults := vs
            , events := [.psshInit "Widevine" w0.pssh], exchanges := 0 } with
        | raised e st =>
          intro hw
          simp at hw
        | completed st =>
          dsimp only
          cases htk : ctx.track_kid with
          | none =>
            dsimp only
            intro hw
            cases Option.some.inj (Except.ok.inj hw)
            rfl
          | some tk =>
            dsimp only
            by_cases hmiss : (lookupA st.cks tk).isNone
            · rw [if_pos hmiss]
              intro hw
              simp at hw
            · rw [if_neg hmiss]
              intro hw
              cases Option.some.inj (Except.ok.inj hw)
              rfl

/-- **C9.** With an export path configured and at least one resolved key,
the written document is the read-merge-write of the mapping
title → track → (key-id hex → key hex) into the previous file contents
(empty structure when the file does not exist); the merge preserves all
entries of other titles and of other tracks of the same title, and replaces
only the nested key-id map of the (title, track) pair, updating it entry by
entry. -/
theorem export_read_merge_write :
    (∀ (cdmPresent : Bool) (ctx : DrmCtx) (vs : Vaults) (exportCfg : Bool)
        (exportFile : Option ExportDoc) (titleName : String) (track : Track)
        (custom : Option Drm) (w : WidevineRec),
      (prepare_drm_keys cdmPresent ctx vs exportCfg exportFile titleName track custom).result
          = .ok (some w) →
        (prepare_drm_keys cdmPresent ctx vs exportCfg exportFile titleName track custom).written
          = exportStep exportCfg exportFile titleName track.name w.content_keys) ∧
    (∀ (file : Option ExportDoc) (t tr : String) (cks : List (KID × Key)),
      cks ≠ [] →
        exportStep true file t tr cks =
          some (mergeExport (file.getD []) t tr (cks.map (fun kv => (kidHex kv.1, kv.2))))) ∧
    (∀ (doc : ExportDoc) (title track : String) (new : List (String × String)),
      (∀ t', t' ≠ title →
        lookupA (mergeExport doc title track new) t' = lookupA doc t') ∧
      (∀ tr', tr' ≠ track →
        exportEntry (mergeExport doc title track new) title tr' = exportEntry doc title tr') ∧
      exportEntry (mergeExport doc title track new) title track =
        some (dictUpdate ((exportEntry doc title track).getD []) new)) := by
  refine ⟨prepare_written_eq_exportStep, ?_, ?_⟩
  · intro file t tr cks hne
    unfold exportStep
    rw [if_pos (by simp [hne])]
  · intro doc title track new
    refine ⟨fun t' h => mergeExport_other_title doc title track new t' h, ?_, ?_⟩
    · intro tr' h
      unfold exportEntry titleTracks
      rw [mergeExport_self_title]
      simp only [Option.getD_some]
      exact mergeTrackMap_other track new _ tr' h
    · unfold exportEntry titleTracks
      rw [mergeExport_self_title]
      simp only [Option.getD_some]
      exact mergeTrackMap_self track new _

/-- Witness for C9: merging a two-key map for ("T1", "V1") into a document
holding other entries preserves the other title and the other track and
overwrites the nested map of the pair. -/
theorem export_read_merge_write_witness :
    (lookupA (mergeExport [("T2", [("V9", [("k", "v")])])] "T1" "V1" [("a", "1")]) "T2"
      = lookupA [("T2", [("V9", [("k", "v")])])] "T2") ∧
    (exportEntry (mergeExport [("T1", [("V9", [("k", "v")]), ("V1", [("a", "0"), ("b", "2")])])]
        "T1" "V1" [("a", "1")]) "T1" "V9"
      = exportEntry [("T1", [("V9", [("k", "v")]), ("V1", [("a", "0"), ("b", "2")])])] "T1" "V9") ∧
    (exportEntry (mergeExport [("T1", [("V1", [("a", "0"), ("b", "2")])])] "T1" "V1" [("a", "1")])
        "T1" "V1" = some [("a", "1"), ("b", "2")]) := by
  refine ⟨?_, ?_, ?_⟩
  · exact (export_read_merge_write.2.2 [("T2", [("V9", [("k", "v")])])] "T1" "V1" [("a", "1")]).1
      "T2" (by decide)
  · exact (export_read_merge_write.2.2 [("T1", [("V9", [("k", "v")]), ("V1", [("a", "0"), ("b", "2")])])]
      "T1" "V1" [("a", "1")]).2.1 "V9" (by decide)
  · have := (export_read_merge_write.2.2 [("T1", [("V1", [("a", "0"), ("b", "2")])])]
      "T1" "V1" [("a", "1")]).2.2
    rw [this]
    decide

/-! ## Claims about cache hits and cache warming -/

/-- The effect of `Vaults.add_key` on the backend at one position: untouched
when excluded or when its write raises, updated otherwise. -/
def appliedWrite (s : String) (kid : KID) (key : Key) (excl : Option Nat)
    (p : Nat × Vault) : Vault :=
  if excl = some p.1 then p.2
  else
    match p.2.write s kid key with
    | .ok q => q.2
    | .error _ => p.2

theorem addKeyList_spec (l : List Vault) (s : String) (kid : KID) (key : Key)
    (excl : Option Nat) (i : Nat) :
    addKeyList l s kid key excl i =
      ((l.enumFrom i).countP (fun p => !(excl == some p.1) && (p.2.mode == .ok)),
       (l.enumFrom i).map (appliedWrite s kid key excl)) := by
  induction l generalizing i with
  | nil => rfl
  | cons v rest ih =>
    simp only [addKeyList, List.enumFrom, List.countP_cons, List.map_cons, ih]
    by_cases he : excl = some i
    · have hp : (!(excl == some i) && (v.mode == WriteMode.ok)) = false := by
        simp [he]
      simp [he, hp, appliedWrite]
    · have hee : (excl == some i) = false := by
        simp [he]
      cases hm : v.mode with
      | ok =>
        have hw : v.write s kid key = .ok (1, { v with store := setAssoc v.store (s, kid) key }) := by
          unfold Vault.write
          rw [hm]
        simp [he, hee, hm, hw, appliedWrite]
      | permissionError =>
        have hw : v.write s kid key = .error .permissionError := by
          unfold Vault.write
          rw [hm]
        simp [he, hee, hm, hw, appliedWrite]
      | notImplementedError =>
        have hw : v.write s kid key = .error .notImplementedError := by
          unfold Vault.write
          rw [hm]
        simp [he, hee, hm, hw, appliedWrite]

/-- **C7.** A cache hit for a still-unresolved key id populates the
descriptor's key map, emits a key-found notification tagged with the backend
that supplied it, re-broadcasts the key through `add_key` with that backend
excluded, and moves on (no device exchange in that iteration); and `add_key`
writes to every backend except the excluded one, skips a backend raising
PermissionError or NotImplementedError without failing the call, and returns
the number of successful writes. -/
theorem cache_hit_broadcast :
    (∀ (ctx : DrmCtx) (kids : List KID) (kid : KID) (st : DrmState),
      ctx.cdm_only = false → lookupA st.cks kid = none →
      ∀ key i, st.vaults.get_key kid none = (some key, some i) →
        drmStep ctx kids kid st = .next
          { st with
              cks := setAssoc st.cks kid key
            , vaults := (st.vaults.add_key kid key (some i) none).2
            , events := st.events ++
                [.keyFound (kidHex kid) key ("from " ++ vaultLabel st.vaults (some i))
                  (decide (ctx.track_kid = some kid))] }) ∧
    (∀ (vs : Vaults) (kid : KID) (key : Key) (excl : Option Nat) (svc : Option String),
      ((vs.add_key kid key excl svc).1 =
          vs.vaults.enum.countP (fun p => !(excl == some p.1) && (p.2.mode == .ok))) ∧
      (vs.add_key kid key excl svc).2.vaults.length = vs.vaults.length ∧
      (∀ j v, vs.vaults.get? j = some v →
        (excl = some j → (vs.add_key kid key excl svc).2.vaults.get? j = some v) ∧
        (v.mode ≠ .ok → (vs.add_key kid key excl svc).2.vaults.get? j = some v) ∧
        (excl ≠ some j → v.mode = .ok →
          (vs.add_key kid key excl svc).2.vaults.get? j =
            some { v with store := setAssoc v.store (vs.resolve svc, kid) key }))) := by
  constructor
  · intro ctx kids kid st hcdm hmiss key i hget
    unfold drmStep
    rw [hmiss, hcdm, hget]
    simp [lookupA_setAssoc_self]
  · intro vs kid key excl svc
    have hspec := addKeyList_spec vs.vaults (vs.resolve svc) kid key excl 0
    refine ⟨?_, ?_, ?_⟩
    · show (addKeyList vs.vaults (vs.resolve svc) kid key excl 0).1 = _
      rw [hspec]
      rfl
    · show (addKeyList vs.vaults (vs.resolve svc) kid key excl 0).2.length = _
      rw [hspec]
      simp [List.enumFrom_length]
    · intro j v hv
      have hget2 : (addKeyList vs.vaults (vs.resolve svc) kid key excl 0).2.get? j =
          some (appliedWrite (vs.resolve svc) kid key excl (j, v)) := by
        rw [hspec]
        simp only [List.get?_map, List.get?_enumFrom, hv, Option.map_some', Nat.zero_add]
      refine ⟨?_, ?_, ?_⟩
      · intro he
        show (addKeyList vs.vaults (vs.resolve svc) kid key excl 0).2.get? j = some v
        rw [hget2]
        unfold appliedWrite
        rw [if_pos he]
      · intro hm
        show (addKeyList vs.vaults (vs.resolve svc) kid key excl 0).2.get? j = some v
        rw [hget2]
        unfold appliedWrite
        by_cases he : excl = some j
        · rw [if_pos he]
        · rw [if_neg he]
          cases hmode : v.mode with
          | ok => exact absurd hmode hm
          | permissionError =>
            have hw : v.write (vs.resolve svc) kid key = .error .permissionError := by
              unfold Vault.write
              rw [hmode]
            rw [hw]
          | notImplementedError =>
            have hw : v.write (vs.resolve svc) kid key = .error .notImplementedError := by
              unfold Vault.write
              rw [hmode]
            rw [hw]
      · intro he hm
        show (addKeyList vs.vaults (vs.resolve svc) kid key excl 0).2.get? j =
          some { v with store := setAssoc v.store (vs.resolve svc, kid) key }
        rw [hget2]
        unfold appliedWrite
        rw [if_neg he]
        have hw : v.write (vs.resolve svc) kid key =
            .ok (1, { v with store := setAssoc v.store (vs.resolve svc, kid) key }) := by
          unfold Vault.write
          rw [hm]
        rw [hw]

/-- The concrete state of the C7 witness: three backends, the first holding
the key, the second writable, the third permission-denied. -/
def demoStateC7 : DrmState :=
  { cks := []
  , vaults := ⟨"W", [⟨"V0", [(("W", 7), "k7")], .ok⟩, ⟨"V1", [], .ok⟩,
      ⟨"V2", [], .permissionError⟩]⟩
  , events := []
  , exchanges := 0 }

/-- Witness for C7: the hit at backend 0 populates the key map, notifies with
the backend's label, and the re-broadcast writes backend 1, skips excluded
backend 0 and permission-denied backend 2, for one successful write. -/
theorem cache_hit_broadcast_witness :
    drmStep ⟨false, false, fun _ => [], none⟩ [7] 7 demoStateC7 = .next
      { demoStateC7 with
          cks := setAssoc demoStateC7.cks 7 "k7"
        , vaults := (demoStateC7.vaults.add_key 7 "k7" (some 0) none).2
        , events := demoStateC7.events ++
            [.keyFound (kidHex 7) "k7" ("from " ++ vaultLabel demoStateC7.vaults (some 0))
              (decide ((⟨false, false, fun _ => [], none⟩ : DrmCtx).track_kid = some 7))] } ∧
    (demoStateC7.vaults.add_key 7 "k7" (some 0) none).1 = 1 := by
  constructor
  · exact cache_hit_broadcast.1 ⟨false, false, fun _ => [], none⟩ [7] 7 demoStateC7
      rfl rfl "k7" 0 (by decide)
  · rw [(cache_hit_broadcast.2 demoStateC7.vaults 7 "k7" (some 0) none).1]
    decide

/-! ## Claims about the track selector -/

/-- **C5.** The claim (and the method's own docstring, "Selects and returns a
new Tracks object") says `select` is pure and leaves `title.tracks`
unchanged.  The code binds `tracks = title.tracks` and narrows that same
object in place (`track_selector.py:48,52,60,65,90,93`), returning it.
Evaluation at a title with a 1080p and a 480p video and `quality=[1080]`:
after the call the title's own video list has lost the 480p track, and the
returned collection is that same mutated object. -/
theorem select_mutates_title_tracks :
    let t : TracksS := ⟨[⟨1, none, none, none, "en", some 1080, none⟩,
        ⟨2, none, none, none, "en", some 480, none⟩], [], [], []⟩
    let c : Criteria := ⟨[1080], none, none, 0, 0, [], none, [], [], [],
        false, false, false, false⟩
    (selectRun c true t).2 ≠ t ∧
    (selectRun c true t).2.videos = [⟨1, none, none, none, "en", some 1080, none⟩] ∧
    (selectRun c true t).1 = (selectRun c true t).2 := by
  exact ⟨by decide, by decide, by decide⟩

/-- **C6.** The resolution/range cross-product pass picks at most one video
per (quality, range) pair — the first candidate matching the pair's height
(or 16:9-converted width) and dynamic range — and when the whole cross
product matches no candidate it keeps the pre-existing candidate set
unchanged, so it never reduces a non-empty candidate set to empty. -/
theorem resolution_range_pass_spec (quality : List Nat) (range_ : List String)
    (vids : List Video) :
    ((∀ pr ∈ pairsOf quality range_, ∀ v ∈ vids, matchPair pr.1 pr.2 v = false) →
      resolutionRangePass quality range_ vids = vids) ∧
    (vids ≠ [] → resolutionRangePass quality range_ vids ≠ []) ∧
    (∀ v ∈ resolutionRangePass quality range_ vids, v ∈ vids) ∧
    ((∃ pr ∈ pairsOf quality range_, ∃ v ∈ vids, matchPair pr.1 pr.2 v = true) →
      (resolutionRangePass quality range_ vids).length ≤ (pairsOf quality range_).length ∧
      ∀ v ∈ resolutionRangePass quality range_ vids,
        ∃ pr ∈ pairsOf quality range_, matchPair pr.1 pr.2 v = true ∧
          vids.find? (matchPair pr.1 pr.2) = some v) := by
  refine ⟨?_, ?_, ?_, ?_⟩
  · intro hnone
    unfold resolutionRangePass
    have hempty : (pairsOf quality range_).filterMap
        (fun pr => vids.find? (matchPair pr.1 pr.2)) = [] := by
      rw [List.filterMap_eq_nil]
      intro pr hpr
      rw [List.find?_eq_none]
      intro v hv
      simp [hnone pr hpr v hv]
    rw [hempty]
    rfl
  · intro hne
    unfold resolutionRangePass
    cases hp : (pairsOf quality range_).filterMap
        (fun pr => vids.find? (matchPair pr.1 pr.2)) with
    | nil => simpa using hne
    | cons a l => simp
  · intro v hv
    unfold resolutionRangePass at hv
    cases hp : (pairsOf quality range_).filterMap
        (fun pr => vids.find? (matchPair pr.1 pr.2)) with
    | nil =>
      rw [hp] at hv
      simpa using hv
    | cons a l =>
      rw [hp] at hv
      simp only [List.isEmpty_cons, if_neg] at hv
      have : v ∈ (pairsOf quality range_).filterMap
          (fun pr => vids.find? (matchPair pr.1 pr.2)) := by
        rw [hp]; simpa using hv
      rcases List.mem_filterMap.mp this with ⟨pr, _, hfind⟩
      exact List.mem_of_find?_eq_some hfind
  · intro hsome
    rcases hsome with ⟨pr, hpr, v, hv, hmatch⟩
    have hpicks : (pairsOf quality range_).filterMap
        (fun pr => vids.find? (matchPair pr.1 pr.2)) ≠ [] := by
      intro hnil
      rw [List.filterMap_eq_nil] at hnil
      have := hnil pr hpr
      rw [List.find?_eq_none] at this
      exact absurd hmatch (by simp [this v hv])
    have hpass : resolutionRangePass quality range_ vids =
        (pairsOf quality range_).filterMap (fun pr => vids.find? (matchPair pr.1 pr.2)) := by
      unfold resolutionRangePass
      rw [if_neg (by simpa using hpicks)]
    constructor
    · rw [hpass]
      exact List.length_filterMap_le _ _
    · intro u hu
      rw [hpass] at hu
      rcases List.mem_filterMap.mp hu with ⟨pr', hpr', hfind⟩
      exact ⟨pr', hpr', List.find?_some hfind, hfind⟩

/-- Witness for C6: the end-to-end scenario of the design document —
quality `[1080, 720]`, range `[SDR]`, and a lone 480p SDR candidate that no
pair matches — keeps the candidate set unchanged. -/
theorem resolution_range_pass_spec_witness :
    resolutionRangePass [1080, 720] ["SDR"]
        [⟨9, none, some "SDR", none, "en", some 480, some 854⟩] =
      [⟨9, none, some "SDR", none, "en", some 480, some 854⟩] :=
  (resolution_range_pass_spec [1080, 720] ["SDR"]
      [⟨9, none, some "SDR", none, "en", some 480, some 854⟩]).1 (by decide)

/-! ## Generic list lemmas for the idempotence proof -/

theorem find?_flatMap' {α β : Type} (l : List α) (f : α → List β) (p : β → Bool) :
    (l.flatMap f).find? p = l.findSome? (fun a => (f a).find? p) := by
  induction l with
  | nil => rfl
  | cons a rest ih =>
    rw [List.flatMap_cons, List.find?_append, List.findSome?_cons, ih]
    cases (f a).find? p <;> rfl

theorem find?_filter'' {α : Type} (l : List α) (g p : α → Bool) :
    (l.filter g).find? p = l.find? (fun x => g x && p x) := by
  induction l with
  | nil => rfl
  | cons a rest ih =>
    by_cases hg : g a
    · rw [List.filter_cons_of_pos hg]
      by_cases hp : p a
      · rw [List.find?_cons_of_pos _ hp, List.find?_cons_of_pos _ (by simp [hg, hp])]
      · rw [List.find?_cons_of_neg _ (by simpa using hp),
          List.find?_cons_of_neg _ (by simp [hp]), ih]
    · rw [List.filter_cons_of_neg hg, List.find?_cons_of_neg _ (by simp [hg]), ih]

theorem find?_filterMap' {α β : Type} (l : List α) (f : α → Option β) (p : β → Bool) :
    (l.filterMap f).find? p =
      l.findSome? (fun a => (f a).bind (fun b => if p b then some b else none)) := by
  induction l with
  | nil => rfl
  | cons a rest ih =>
    rw [List.filterMap_cons, List.findSome?_cons]
    cases hf : f a with
    | none => simpa using ih
    | some b =>
      by_cases hp : p b
      · rw [List.find?_cons_of_pos _ hp]
        simp [hp]
      · rw [List.find?_cons_of_neg _ (by simpa using hp)]
        simpa [hp] using ih

theorem findSome?_map' {α β γ : Type} (l : List α) (f : α → β) (g : β → Option γ) :
    (l.map f).findSome? g = l.findSome? (fun a => g (f a)) := by
  induction l with
  | nil => rfl
  | cons a rest ih =>
    rw [List.map_cons, List.findSome?_cons, List.findSome?_cons, ih]

theorem findSome?_eq_some_split {α β : Type} {l : List α} {f : α → Option β} {b : β} :
    l.findSome? f = some b →
      ∃ l₁ a l₂, l = l₁ ++ a :: l₂ ∧ f a = some b ∧ ∀ y ∈ l₁, f y = none := by
  induction l with
  | nil => intro h; simp at h
  | cons a rest ih =>
    intro h
    rw [List.findSome?_cons] at h
    cases hf : f a with
    | some c =>
      rw [hf] at h
      exact ⟨[], a, rest, rfl, hf.trans h, by simp⟩
    | none =>
      rw [hf] at h
      rcases ih h with ⟨l₁, x, l₂, hl, hx, hpre⟩
      refine ⟨a :: l₁, x, l₂, by rw [hl]; rfl, hx, ?_⟩
      intro y hy
      rcases List.mem_cons.mp hy with rfl | hy
      · exact hf
      · exact hpre y hy

theorem findSome?_upto {α β : Type} {x : α} {B : List α} {f : α → Option β}
    {t : β} (hx : f x = some t) :
    ∀ A : List α, (∀ a ∈ A, f a = none ∨ f a = some t) →
      (A ++ x :: B).findSome? f = some t := by
  intro A
  induction A with
  | nil =>
    intro _
    rw [List.nil_append, List.findSome?_cons, hx]
  | cons a rest ih =>
    intro hA
    rw [List.cons_append, List.findSome?_cons]
    rcases hA a (by simp) with h | h
    · rw [h]
      exact ih (fun y hy => hA y (by simp [hy]))
    · rw [h]

theorem find?_antisym {α : Type} {l : List α} {p q : α → Bool} {a b : α}
    (hp : l.find? p = some a) (hq : l.find? q = some b)
    (hqa : q a = true) (hpb : p b = true) : a = b := by
  induction l with
  | nil => simp at hp
  | cons x rest ih =>
    by_cases hpx : p x
    · rw [List.find?_cons_of_pos _ hpx] at hp
      injection hp with hp
      subst hp
      by_cases hqx : q x
      · rw [List.find?_cons_of_pos _ hqx] at hq
        exact Option.some.inj hq
      · exact absurd hqa hqx
    · rw [List.find?_cons_of_neg _ (by simpa using hpx)] at hp
      by_cases hqx : q x
      · rw [List.find?_cons_of_pos _ hqx] at hq
        exact absurd ((Option.some.inj hq).symm ▸ hpb) hpx
      · rw [List.find?_cons_of_neg _ (by simpa using hqx)] at hq
        exact ih hp hq

theorem find?_const_of_all {α : Type} {p : α → Bool} {t : α} :
    ∀ l : List α, t ∈ l → p t = true → (∀ x ∈ l, p x = true → x = t) →
      l.find? p = some t := by
  intro l
  induction l with
  | nil => intro ht; simp at ht
  | cons a rest ih =>
    intro ht hpt hall
    by_cases hpa : p a
    · rw [List.find?_cons_of_pos _ hpa]
      rw [hall a (by simp) hpa]
    · rw [List.find?_cons_of_neg _ (by simpa using hpa)]
      rcases List.mem_cons.mp ht with rfl | ht
      · exact absurd hpt hpa
      · exact ih ht hpt (fun x hx hpx => hall x (by simp [hx]) hpx)

theorem split_location {α : Type} {D B : List α} {x : α} :
    ∀ (C : List α) {l A : List α}, l = C ++ D → l = A ++ x :: B → x ∉ C →
      ∃ D₁ D₂, D = D₁ ++ x :: D₂ ∧ A = C ++ D₁ := by
  intro C
  induction C with
  | nil =>
    intro l A h1 h2 _
    exact ⟨A, B, by rw [← h2, h1, List.nil_append], rfl⟩
  | cons c C' ih =>
    intro l A h1 h2 hx
    cases A with
    | nil =>
      rw [List.nil_append] at h2
      rw [h2, List.cons_append] at h1
      injection h1 with h1a _
      exact absurd (by rw [h1a]; exact List.mem_cons_self c C') hx
    | cons a A' =>
      rw [List.cons_append] at h1 h2
      rw [h2] at h1
      injection h1 with hca hrest
      rcases ih hrest rfl (fun hmem => hx (List.mem_cons_of_mem _ hmem)) with
        ⟨D₁, D₂, hD, hA⟩
      refine ⟨D₁, D₂, hD, ?_⟩
      rw [hca, hA, List.cons_append]

/-! ## Block 2: shape lemmas for the cross-product pass -/

def rangeOk (rng : Option String) (v : Video) : Bool :=
  !rng.isSome || v.range == rng

def rsOpt (range_ : List String) : List (Option String) :=
  if range_.isEmpty then [none] else range_.map some

def qsOpt (quality : List Nat) : List (Option Nat) :=
  if quality.isEmpty then [none] else quality.map some

theorem matchPair_none_eq (rng : Option String) (x : Video) :
    matchPair none rng x = rangeOk rng x := by
  cases hr : rng.isSome <;> simp [matchPair, truthyQ, rangeOk, hr]

theorem matchPair_some_eq (z : Nat) (rng : Option String) (x : Video) :
    matchPair (some z) rng x = (((z == 0) || resMatches z x) && rangeOk rng x) := by
  have hm : matchPair (some z) rng x =
      ((!(z != 0) && !rng.isSome) ||
        ((!(z != 0) || resMatches z x) && (!rng.isSome || x.range == rng))) := rfl
  have hz : (!(z != 0)) = (z == 0) := by
    cases h : z == 0 <;> simp [bne, h]
  rw [hm, hz]
  unfold rangeOk
  cases z == 0 <;> cases rng.isSome <;> cases x.range == rng <;>
    cases resMatches z x <;> rfl

theorem rangeOk_unique {range_ : List String} {r₁ r₂ : Option String} {x : Video}
    (h₁ : r₁ ∈ rsOpt range_) (h₂ : r₂ ∈ rsOpt range_)
    (hx₁ : rangeOk r₁ x = true) (hx₂ : rangeOk r₂ x = true) : r₁ = r₂ := by
  unfold rsOpt at h₁ h₂
  by_cases he : range_.isEmpty
  · rw [if_pos he] at h₁ h₂
    simp at h₁ h₂
    rw [h₁, h₂]
  · rw [if_neg he] at h₁ h₂
    rcases List.mem_map.mp h₁ with ⟨s₁, _, rfl⟩
    rcases List.mem_map.mp h₂ with ⟨s₂, _, rfl⟩
    unfold rangeOk at hx₁ hx₂
    simp at hx₁ hx₂
    rw [hx₁] at hx₂
    exact hx₂

theorem resMatches_slot {v : Video} {q : Nat} (h : resMatches q v = true) :
    v.height = some q ∨ v.width.map (fun w => w * 9 / 16) = some q := by
  unfold resMatches at h
  simp only [Bool.or_eq_true] at h
  rcases h with h | h
  · exact Or.inl (eq_of_beq h)
  · right
    cases hw : v.width with
    | none => rw [hw] at h; simp at h
    | some w =>
      rw [hw] at h
      simp at h
      simp [h]

theorem resMatches_pigeonhole {v : Video} {z₁ z₂ z₃ : Nat}
    (h1 : resMatches z₁ v = true) (h2 : resMatches z₂ v = true)
    (h3 : resMatches z₃ v = true) (d12 : z₁ ≠ z₂) (d13 : z₁ ≠ z₃)
    (d23 : z₂ ≠ z₃) : False := by
  rcases resMatches_slot h1 with e1 | e1 <;>
    rcases resMatches_slot h2 with e2 | e2 <;>
      rcases resMatches_slot h3 with e3 | e3
  all_goals first
    | exact d12 (Option.some.inj (e1.symm.trans e2))
    | exact d13 (Option.some.inj (e1.symm.trans e3))
    | exact d23 (Option.some.inj (e2.symm.trans e3))

theorem flatMap_map' {α β γ : Type} (l : List α) (f : α → β) (g : β → List γ) :
    (l.map f).flatMap g = l.flatMap (fun a => g (f a)) := by
  induction l with
  | nil => rfl
  | cons a rest ih => rw [List.map_cons, List.flatMap_cons, List.flatMap_cons, ih]

theorem pairsOf_eq (quality : List Nat) (range_ : List String) :
    pairsOf quality range_ =
      (qsOpt quality).flatMap (fun q => (rsOpt range_).map (fun r => (q, r))) := rfl

/-- One block of the cross product: the pairs for a single quality value. -/
def blk (range_ : List String) (z : Nat) : List (Option Nat × Option String) :=
  (rsOpt range_).map (fun r => (some z, r))

theorem pairsOf_nonempty {quality : List Nat} (range_ : List String)
    (hq : quality ≠ []) :
    pairsOf quality range_ = quality.flatMap (blk range_) := by
  rw [pairsOf_eq]
  unfold qsOpt
  rw [if_neg (by simpa using hq), flatMap_map']
  rfl

theorem mem_pairsOf_of {quality : List Nat} {range_ : List String}
    {pr : Option Nat × Option String}
    (h : pr ∈ pairsOf quality range_) (hq : quality ≠ []) :
    ∃ qa ∈ quality, ∃ rr ∈ rsOpt range_, pr = (some qa, rr) := by
  rw [pairsOf_nonempty range_ hq] at h
  rcases List.mem_flatMap.mp h with ⟨z, hz, hpr⟩
  rcases List.mem_map.mp hpr with ⟨rr, hrr, hpr'⟩
  exact ⟨z, hz, rr, hrr, hpr'.symm⟩

theorem mem_pairsOf_nil {range_ : List String} {pr : Option Nat × Option String}
    (h : pr ∈ pairsOf [] range_) : ∃ rr ∈ rsOpt range_, pr = (none, rr) := by
  rw [pairsOf_eq] at h
  have hq : qsOpt ([] : List Nat) = [none] := rfl
  rw [hq] at h
  simp only [List.flatMap_cons, List.flatMap_nil, List.append_nil] at h
  rcases List.mem_map.mp h with ⟨rr, hrr, hpr'⟩
  exact ⟨rr, hrr, hpr'.symm⟩

theorem pairsOf_mem_of {quality : List Nat} {range_ : List String} {qa : Nat}
    {rr : Option String} (hqa : qa ∈ quality) (hrr : rr ∈ rsOpt range_) :
    (some qa, rr) ∈ pairsOf quality range_ := by
  rw [pairsOf_nonempty range_ (List.ne_nil_of_mem hqa)]
  exact List.mem_flatMap.mpr ⟨qa, hqa, List.mem_map.mpr ⟨rr, hrr, rfl⟩⟩

theorem none_mem_rsOpt : none ∈ rsOpt ([] : List String) := by
  simp [rsOpt]

theorem some_mem_rsOpt {range_ : List String} {s : String} (h : s ∈ range_) :
    some s ∈ rsOpt range_ := by
  unfold rsOpt
  rw [if_neg (by simp; exact List.ne_nil_of_mem h)]
  exact List.mem_map_of_mem _ h

theorem mem_flatMap_filter {q : List Nat} {L : List Video} {x : Video}
    (h : x ∈ q.flatMap (fun z => L.filter (resMatches z))) :
    x ∈ L ∧ ∃ z ∈ q, resMatches z x = true := by
  rcases List.mem_flatMap.mp h with ⟨z, hz, hx⟩
  rcases List.mem_filter.mp hx with ⟨hxL, hres⟩
  exact ⟨hxL, z, hz, hres⟩

theorem find?_congr' {α : Type} {l : List α} {p q : α → Bool}
    (h : ∀ x ∈ l, p x = q x) : l.find? p = l.find? q := by
  induction l with
  | nil => rfl
  | cons a rest ih =>
    have ha := h a (by simp)
    by_cases hp : p a
    · rw [List.find?_cons_of_pos _ hp, List.find?_cons_of_pos _ (ha ▸ hp)]
    · rw [List.find?_cons_of_neg _ (by simpa using hp),
        List.find?_cons_of_neg _ (by simp [← ha, hp])]
      exact ih (fun x hx => h x (by simp [hx]))

theorem filterMap_congr' {α β : Type} {l : List α} {f g : α → Option β}
    (h : ∀ a ∈ l, f a = g a) : l.filterMap f = l.filterMap g := by
  induction l with
  | nil => rfl
  | cons a rest ih =>
    rw [List.filterMap_cons, List.filterMap_cons, h a (by simp),
      ih (fun x hx => h x (by simp [hx]))]

/-- The `quality`-grouped selection underlying `by_resolutions`. -/
def bigSel (quality : List Nat) (vids : List Video) : List Video :=
  quality.flatMap (fun q => vids.filter (resMatches q))

theorem byResolutions_eq (quality : List Nat) (vids : List Video) :
    byResolutions quality vids =
      if (bigSel quality vids).isEmpty then vids else bigSel quality vids := rfl

/-- The pick list of the resolution/range cross-product pass. -/
def picksOf (quality : List Nat) (range_ : List String) (vids : List Video) :
    List Video :=
  (pairsOf quality range_).filterMap (fun pr => vids.find? (matchPair pr.1 pr.2))

theorem rrp_eq (quality : List Nat) (range_ : List String) (vids : List Video) :
    resolutionRangePass quality range_ vids =
      if (picksOf quality range_ vids).isEmpty then vids
      else picksOf quality range_ vids := rfl

/-! ## Block 3: stability of the cross-product picks under re-selection -/

theorem findSome?_eq_none_iff' {α β : Type} {l : List α} {f : α → Option β} :
    l.findSome? f = none ↔ ∀ a ∈ l, f a = none := by
  induction l with
  | nil => simp
  | cons a rest ih =>
    rw [List.findSome?_cons]
    cases hf : f a with
    | some b => simp [hf]
    | none => simp [hf, ih]

theorem find?_exists_of_mem {α : Type} {l : List α} {p : α → Bool} {a : α}
    (ha : a ∈ l) (hpa : p a = true) : ∃ b, l.find? p = some b := by
  cases h : l.find? p with
  | none => exact absurd hpa (List.find?_eq_none.mp h a ha)
  | some b => exact ⟨b, rfl⟩

theorem bigSel_find? (q : List Nat) (W : List Video) (p : Video → Bool) :
    (bigSel q W).find? p =
      q.findSome? (fun z => W.find? (fun x => resMatches z x && p x)) := by
  unfold bigSel
  rw [find?_flatMap']
  exact congrArg (fun g => List.findSome? g q)
    (funext (fun z => find?_filter'' W (resMatches z) p))

theorem mem_bigSel {q : List Nat} {L : List Video} {x : Video}
    (h : x ∈ bigSel q L) : x ∈ L ∧ ∃ z ∈ q, resMatches z x = true :=
  mem_flatMap_filter h

theorem mem_picksOf {q : List Nat} {r : List String} {W : List Video} {u : Video}
    (h : u ∈ picksOf q r W) :
    u ∈ W ∧ ∃ pr ∈ pairsOf q r, W.find? (matchPair pr.1 pr.2) = some u := by
  unfold picksOf at h
  rcases List.mem_filterMap.mp h with ⟨pr, hpr, hfind⟩
  exact ⟨List.mem_of_find?_eq_some hfind, pr, hpr, hfind⟩

theorem mem_blk {range_ : List String} {z : Nat} {pr : Option Nat × Option String}
    (h : pr ∈ blk range_ z) : ∃ rr ∈ rsOpt range_, pr = (some z, rr) := by
  rcases List.mem_map.mp h with ⟨rr, hrr, hpr⟩
  exact ⟨rr, hrr, hpr.symm⟩

theorem picksOf_find?_none {q : List Nat} {r : List String} {W : List Video}
    {p : Video → Bool} (hnone : W.find? p = none) :
    (bigSel q (picksOf q r W)).find? p = none := by
  apply List.find?_eq_none.mpr
  intro u hu
  exact List.find?_eq_none.mp hnone u (mem_picksOf (mem_bigSel hu).1).1

theorem findSome?_of_split {α β : Type} {l l₁ l₂ : List α} {x : α}
    {f : α → Option β} {t : β} (hl : l = l₁ ++ x :: l₂) (hx : f x = some t)
    (hA : ∀ a ∈ l₁, f a = none ∨ f a = some t) : l.findSome? f = some t := by
  rw [hl]
  exact findSome?_upto hx l₁ hA

theorem picksOf_find?_main {q : List Nat} {r : List String} {L1 : List Video}
    {qa : Nat} (hqa : qa ∈ q) {rr : Option String} (hrr : rr ∈ rsOpt r)
    {t : Video}
    (ht : (bigSel q L1).find? (matchPair (some qa) rr) = some t) :
    (bigSel q (picksOf q r (bigSel q L1))).find? (matchPair (some qa) rr)
      = some t := by
  have hq : q ≠ [] := List.ne_nil_of_mem hqa
  have hMt : matchPair (some qa) rr t = true := List.find?_some ht
  have htS : t ∈ bigSel q L1 := List.mem_of_find?_eq_some ht
  have htL1 : t ∈ L1 := (mem_bigSel htS).1
  have hMt' := hMt
  rw [matchPair_some_eq] at hMt'
  simp only [Bool.and_eq_true, Bool.or_eq_true] at hMt'
  have hrk_t : rangeOk rr t = true := hMt'.2
  have ht0 := ht
  rw [bigSel_find?] at ht
  obtain ⟨q₁, qv, q₂, hqsplit, hfqv, hq₁⟩ := findSome?_eq_some_split ht
  have hρqvt := List.find?_some hfqv
  simp only [Bool.and_eq_true] at hρqvt
  have hqvt : resMatches qv t = true := hρqvt.1
  rw [bigSel_find?]
  refine findSome?_of_split hqsplit ?_ ?_
  · -- the pick list still yields t for the quality value qv
    show (picksOf q r (bigSel q L1)).find?
        (fun x => resMatches qv x && matchPair (some qa) rr x) = some t
    have hRfind :
        (picksOf q r (bigSel q L1)).find?
            (fun x => resMatches qv x && matchPair (some qa) rr x) =
          (pairsOf q r).findSome?
            (fun X => ((bigSel q L1).find? (matchPair X.1 X.2)).bind
              (fun b => if resMatches qv b && matchPair (some qa) rr b
                then some b else none)) :=
      find?_filterMap' (pairsOf q r)
        (fun pr => (bigSel q L1).find? (matchPair pr.1 pr.2))
        (fun x => resMatches qv x && matchPair (some qa) rr x)
    rw [hRfind]
    have hprP : (some qa, rr) ∈ pairsOf q r := pairsOf_mem_of hqa hrr
    have hhpr :
        ((bigSel q L1).find? (matchPair (some qa, rr).1 (some qa, rr).2)).bind
            (fun b => if resMatches qv b && matchPair (some qa) rr b
              then some b else none) = some t := by
      have hfoc : (bigSel q L1).find? (matchPair (some qa, rr).1 (some qa, rr).2)
          = some t := ht0
      rw [hfoc]
      simp [hqvt, hMt]
    cases hPS : (pairsOf q r).findSome?
        (fun X => ((bigSel q L1).find? (matchPair X.1 X.2)).bind
          (fun b => if resMatches qv b && matchPair (some qa) rr b
            then some b else none)) with
    | none =>
      exact absurd
        (hhpr.symm.trans (findSome?_eq_none_iff'.mp hPS _ hprP)) (by simp)
    | some b₀ =>
      obtain ⟨A₀, X₀, B₀, hPsplit, hX₀, hA₀⟩ := findSome?_eq_some_split hPS
      have hX₀' :
          ((bigSel q L1).find? (matchPair X₀.1 X₀.2)).bind
            (fun b => if resMatches qv b && matchPair (some qa) rr b
              then some b else none) = some b₀ := hX₀
      have hX₀P : X₀ ∈ pairsOf q r := by
        rw [hPsplit]
        exact List.mem_append.mpr (Or.inr (List.mem_cons_self _ _))
      obtain ⟨z₀, hz₀q, r₀, hr₀, hX₀eq⟩ := mem_pairsOf_of hX₀P hq
      cases hpick : (bigSel q L1).find? (matchPair X₀.1 X₀.2) with
      | none => rw [hpick] at hX₀'; simp at hX₀'
      | some w₀ =>
        rw [hpick] at hX₀'
        simp only [Option.some_bind] at hX₀'
        by_cases hρw₀ : (resMatches qv w₀ && matchPair (some qa) rr w₀) = true
        · rw [if_pos hρw₀] at hX₀'
          have hw₀b₀ : w₀ = b₀ := Option.some.inj hX₀'
          subst hw₀b₀
          -- now hpick : S.find? (M X₀) = some w₀ with w₀ the survivor
          simp only [Bool.and_eq_true] at hρw₀
          have hMprb₀ : matchPair (some qa) rr w₀ = true := hρw₀.2
          have hMprb₀' := hMprb₀
          rw [matchPair_some_eq] at hMprb₀'
          simp only [Bool.and_eq_true, Bool.or_eq_true] at hMprb₀'
          have hb₀S : w₀ ∈ bigSel q L1 := List.mem_of_find?_eq_some hpick
          have hb₀L1 : w₀ ∈ L1 := (mem_bigSel hb₀S).1
          have hMX₀b₀ : matchPair X₀.1 X₀.2 w₀ = true := List.find?_some hpick
          have hMX₀b₀' : matchPair (some z₀) r₀ w₀ = true := by
            rw [hX₀eq] at hMX₀b₀; exact hMX₀b₀
          rw [matchPair_some_eq] at hMX₀b₀'
          simp only [Bool.and_eq_true, Bool.or_eq_true] at hMX₀b₀'
          have hr₀rr : r₀ = rr :=
            rangeOk_unique hr₀ hrr hMX₀b₀'.2 hMprb₀'.2
          rw [hr₀rr] at hX₀eq
          -- the pick at X₀ is t itself
          suffices hbt : w₀ = t by rw [hbt]
          by_cases hz00 : z₀ = 0
          · refine find?_antisym hpick ht0 hMprb₀ ?_
            rw [hX₀eq, hz00]
            show matchPair (some 0) rr t = true
            rw [matchPair_some_eq]
            simp [hrk_t]
          · by_cases hzqv : z₀ = qv
            · refine find?_antisym hpick ht0 hMprb₀ ?_
              rw [hX₀eq, hzqv]
              show matchPair (some qv) rr t = true
              rw [matchPair_some_eq]
              simp [hrk_t, hqvt]
            · by_cases hzqa : z₀ = qa
              · refine find?_antisym hpick ht0 hMprb₀ ?_
                rw [hX₀eq, hzqa]
                exact hMt
              · -- z₀ is a fresh quality value: impossible
                exfalso
                have hz₀b₀ : resMatches z₀ w₀ = true := by
                  rcases hMX₀b₀'.1 with h | h
                  · exact absurd (by simpa using h) hz00
                  · exact h
                by_cases hzq₁ : z₀ ∈ q₁
                · have hfz₀ := hq₁ z₀ hzq₁
                  have hnot := List.find?_eq_none.mp hfz₀ w₀ hb₀L1
                  exact hnot (by simp [hz₀b₀, hMprb₀])
                · -- positional: the pair (some qv, rr) precedes X₀ in the picks
                  have hPblocks : pairsOf q r =
                      (q₁.flatMap (blk r) ++ blk r qv) ++ q₂.flatMap (blk r) := by
                    rw [pairsOf_nonempty r hq, hqsplit, List.flatMap_append,
                      List.flatMap_cons, ← List.append_assoc]
                  have hX₀notC : X₀ ∉ q₁.flatMap (blk r) ++ blk r qv := by
                    intro hmem
                    rcases List.mem_append.mp hmem with hmem | hmem
                    · rcases List.mem_flatMap.mp hmem with ⟨y, hy, hmem'⟩
                      rcases mem_blk hmem' with ⟨rr', _, heq⟩
                      rw [hX₀eq] at heq
                      have hzy : z₀ = y := by
                        simpa using congrArg Prod.fst heq
                      exact hzq₁ (by rw [hzy]; exact hy)
                    · rcases mem_blk hmem with ⟨rr', _, heq⟩
                      rw [hX₀eq] at heq
                      have hzy : z₀ = qv := by
                        simpa using congrArg Prod.fst heq
                      exact hzqv hzy
                  obtain ⟨D₁, D₂, _, hA₀eq⟩ :=
                    split_location (q₁.flatMap (blk r) ++ blk r qv)
                      hPblocks hPsplit hX₀notC
                  have hπC : ((some qv, rr) : Option Nat × Option String)
                      ∈ q₁.flatMap (blk r) ++ blk r qv :=
                    List.mem_append.mpr
                      (Or.inr (List.mem_map.mpr ⟨rr, hrr, rfl⟩))
                  have hπA₀ : ((some qv, rr) : Option Nat × Option String)
                      ∈ A₀ := by
                    rw [hA₀eq]
                    exact List.mem_append.mpr (Or.inl hπC)
                  have hπnone' :
                      ((bigSel q L1).find? (matchPair (some qv) rr)).bind
                        (fun b => if resMatches qv b && matchPair (some qa) rr b
                          then some b else none) = none := hA₀ _ hπA₀
                  have hMπt : matchPair (some qv) rr t = true := by
                    rw [matchPair_some_eq]
                    simp [hrk_t, hqvt]
                  obtain ⟨w, hw⟩ := find?_exists_of_mem htS hMπt
                  rw [hw] at hπnone'
                  simp only [Option.some_bind] at hπnone'
                  have hρw : (resMatches qv w && matchPair (some qa) rr w)
                      = false := by
                    by_cases hc :
                        (resMatches qv w && matchPair (some qa) rr w) = true
                    · rw [if_pos hc] at hπnone'
                      exact absurd hπnone' (by simp)
                    · simpa using hc
                  have hMπw : matchPair (some qv) rr w = true :=
                    List.find?_some hw
                  rw [matchPair_some_eq] at hMπw
                  simp only [Bool.and_eq_true, Bool.or_eq_true] at hMπw
                  by_cases hqv0 : qv = 0
                  · by_cases hqa0 : qa = 0
                    · -- the pair (some qv, rr) is (some qa, rr) itself
                      have ht0' := ht0
                      have hMt2 := hMt
                      have hqvt' := hqvt
                      have hw' := hw
                      have hρw' := hρw
                      rw [hqa0] at ht0' hMt2 hρw'
                      rw [hqv0] at hw' hqvt' hρw'
                      have hwt : w = t := Option.some.inj (hw'.symm.trans ht0')
                      rw [hwt, hqvt', hMt2] at hρw'
                      simp at hρw'
                    · -- w₀ matches the three distinct values z₀, qv = 0, qa
                      have hqab₀ : resMatches qa w₀ = true := by
                        rcases hMprb₀'.1 with h | h
                        · exact absurd (by simpa using h) hqa0
                        · exact h
                      exact resMatches_pigeonhole hz₀b₀ hρw₀.1 hqab₀
                        hzqv hzqa (fun h => hqa0 (h ▸ hqv0))
                  · -- qv ≠ 0: w separates qv from qa
                    have hqvw : resMatches qv w = true := by
                      rcases hMπw.1 with h | h
                      · exact absurd (by simpa using h) hqv0
                      · exact h
                    have hMprw : matchPair (some qa) rr w = false := by
                      cases hM : matchPair (some qa) rr w
                      · rfl
                      · rw [hqvw, hM] at hρw; simp at hρw
                    rw [matchPair_some_eq] at hMprw
                    have hrkw : rangeOk rr w = true := hMπw.2
                    rw [hrkw, Bool.and_true] at hMprw
                    simp only [Bool.or_eq_false_iff] at hMprw
                    have hqa0 : qa ≠ 0 := by
                      intro h
                      rw [h] at hMprw
                      simpa using hMprw.1
                    have hqaw : resMatches qa w = false := hMprw.2
                    have hqvqa : qv ≠ qa := by
                      intro h
                      rw [h, hqaw] at hqvw
                      exact absurd hqvw (by simp)
                    have hqab₀ : resMatches qa w₀ = true := by
                      rcases hMprb₀'.1 with h | h
                      · exact absurd (by simpa using h) hqa0
                      · exact h
                    exact resMatches_pigeonhole hz₀b₀ hρw₀.1 hqab₀
                      hzqv hzqa hqvqa
        · rw [if_neg hρw₀] at hX₀'
          exact absurd hX₀' (by simp)
  · -- qualities before qv still find nothing among the picks
    intro z hz
    left
    apply List.find?_eq_none.mpr
    intro u huR
    have huL1 : u ∈ L1 := (mem_bigSel (mem_picksOf huR).1).1
    exact List.find?_eq_none.mp (hq₁ z hz) u huL1

/-! ## Block 4: the video pass chain and its idempotence -/

/-- One conditional filter pass (`if cond: tracks.select_video(...)`). -/
def condFilter {α : Type} (b : Bool) (p : α → Bool) (l : List α) : List α :=
  if b then l.filter p else l

theorem mem_condFilter {α : Type} {b : Bool} {p : α → Bool} {l : List α} {x : α}
    (h : x ∈ condFilter b p l) : x ∈ l ∧ (b = true → p x = true) := by
  unfold condFilter at h
  cases b with
  | false => exact ⟨h, fun hb => absurd hb (by simp)⟩
  | true =>
    rw [if_pos rfl] at h
    rcases List.mem_filter.mp h with ⟨h1, h2⟩
    exact ⟨h1, fun _ => h2⟩

theorem condFilter_eq_self {α : Type} {b : Bool} {p : α → Bool} {l : List α}
    (h : ∀ x ∈ l, b = true → p x = true) : condFilter b p l = l := by
  unfold condFilter
  cases b with
  | false => rfl
  | true =>
    rw [if_pos rfl]
    exact List.filter_eq_self.mpr (fun x hx => h x hx rfl)

/-- The four plain filter passes of the video selection
(`track_selector.py:51-60`): codec, dynamic range, bitrate, language. -/
def vfChain (c : Criteria) (vids : List Video) : List Video :=
  let v1 := condFilter c.vcodec.isSome (fun x => x.codec == c.vcodec) vids
  let v2 := condFilter (!c.range_.isEmpty)
    (fun x => match x.range with
      | some r => c.range_.contains r
      | none => false) v1
  let v3 := condFilter (c.vbitrate != 0)
    (fun x => match x.bitrate with
      | some b => b / 1000 == c.vbitrate
      | none => false) v2
  let vlangs := if c.v_lang.isEmpty then c.lang else c.v_lang
  condFilter (!vlangs.isEmpty && !vlangs.contains "all")
    (fun x => closeMatch x.language vlangs) v3

/-- The conditional `by_resolutions` pass (`track_selector.py:62-63`). -/
def byresOpt (quality : List Nat) (l : List Video) : List Video :=
  if !quality.isEmpty then byResolutions quality l else l

theorem selectVideoPasses_eq (c : Criteria) (vids : List Video) :
    selectVideoPasses c vids =
      resolutionRangePass c.quality c.range_
        (byresOpt c.quality (vfChain c vids)) := rfl

/-- The invariant established by the four filter passes. -/
def VfInv (c : Criteria) (x : Video) : Prop :=
  (c.vcodec.isSome = true → (x.codec == c.vcodec) = true) ∧
  ((!c.range_.isEmpty) = true →
    (match x.range with
     | some r => c.range_.contains r
     | none => false) = true) ∧
  ((c.vbitrate != 0) = true →
    (match x.bitrate with
     | some b => b / 1000 == c.vbitrate
     | none => false) = true) ∧
  ((!(if c.v_lang.isEmpty then c.lang else c.v_lang).isEmpty &&
      !(if c.v_lang.isEmpty then c.lang else c.v_lang).contains "all") = true →
    closeMatch x.language (if c.v_lang.isEmpty then c.lang else c.v_lang) = true)

theorem mem_vfChain {c : Criteria} {vids : List Video} {x : Video}
    (h : x ∈ vfChain c vids) : x ∈ vids ∧ VfInv c x := by
  obtain ⟨h3, hc4⟩ := mem_condFilter h
  obtain ⟨h2, hc3⟩ := mem_condFilter h3
  obtain ⟨h1, hc2⟩ := mem_condFilter h2
  obtain ⟨h0, hc1⟩ := mem_condFilter h1
  exact ⟨h0, hc1, hc2, hc3, hc4⟩

theorem vfChain_eq_self {c : Criteria} {O : List Video}
    (h : ∀ x ∈ O, VfInv c x) : vfChain c O = O := by
  show condFilter _ _ (condFilter _ _ (condFilter _ _ (condFilter _ _ O))) = O
  rw [condFilter_eq_self (fun x hx => (h x hx).1),
    condFilter_eq_self (fun x hx => (h x hx).2.1),
    condFilter_eq_self (fun x hx => (h x hx).2.2.1),
    condFilter_eq_self (fun x hx => (h x hx).2.2.2)]

theorem vfInv_range {c : Criteria} {x : Video} (hInv : VfInv c x)
    (hr : c.range_ ≠ []) : ∃ rv, x.range = some rv ∧ rv ∈ c.range_ := by
  have hcond : (!c.range_.isEmpty) = true := by
    simp [List.isEmpty_iff, hr]
  have h2 := hInv.2.1 hcond
  cases hx : x.range with
  | none => rw [hx] at h2; exact absurd h2 (by simp)
  | some rv =>
    rw [hx] at h2
    exact ⟨rv, rfl, by simpa using h2⟩

theorem mem_byresOpt {q : List Nat} {l : List Video} {x : Video}
    (h : x ∈ byresOpt q l) : x ∈ l := by
  unfold byresOpt at h
  by_cases hq : (!q.isEmpty) = true
  · rw [if_pos hq, byResolutions_eq] at h
    by_cases hsel : (bigSel q l).isEmpty = true
    · rw [if_pos hsel] at h; exact h
    · rw [if_neg hsel] at h; exact (mem_bigSel h).1
  · rw [if_neg hq] at h; exact h

theorem mem_rrp {q : List Nat} {r : List String} {l : List Video} {x : Video}
    (h : x ∈ resolutionRangePass q r l) : x ∈ l := by
  rw [rrp_eq] at h
  by_cases hp : (picksOf q r l).isEmpty = true
  · rw [if_pos hp] at h; exact h
  · rw [if_neg hp] at h; exact (mem_picksOf h).1

theorem bigSel_nil_iff {q : List Nat} {L : List Video} :
    bigSel q L = [] ↔ ∀ z ∈ q, ∀ x ∈ L, resMatches z x = false := by
  unfold bigSel
  rw [List.flatMap_eq_nil_iff]
  constructor
  · intro h z hz x hx
    have hf := List.filter_eq_nil.mp (h z hz) x hx
    simpa using hf
  · intro h z hz
    apply List.filter_eq_nil.mpr
    intro x hx
    simp [h z hz x hx]

theorem pairsOf_snd_mem {q : List Nat} {r : List String}
    {pr : Option Nat × Option String} (h : pr ∈ pairsOf q r) :
    pr.2 ∈ rsOpt r := by
  rw [pairsOf_eq] at h
  rcases List.mem_flatMap.mp h with ⟨z, _, hpr⟩
  rcases List.mem_map.mp hpr with ⟨rr, hrr, hpr'⟩
  rw [← hpr']
  exact hrr

theorem picksOf_find?_flat {q : List Nat} {r : List String} {W : List Video}
    (hM : ∀ pr ∈ pairsOf q r,
      (∀ x ∈ W, matchPair pr.1 pr.2 x = false) ∨
      (∀ x ∈ W, matchPair pr.1 pr.2 x = rangeOk pr.2 x))
    {pr : Option Nat × Option String} (hpr : pr ∈ pairsOf q r) :
    (picksOf q r W).find? (matchPair pr.1 pr.2)
      = W.find? (matchPair pr.1 pr.2) := by
  cases hf : W.find? (matchPair pr.1 pr.2) with
  | none =>
    apply List.find?_eq_none.mpr
    intro u hu
    exact List.find?_eq_none.mp hf u (mem_picksOf hu).1
  | some t =>
    have hMt : matchPair pr.1 pr.2 t = true := List.find?_some hf
    have htW : t ∈ W := List.mem_of_find?_eq_some hf
    rcases hM pr hpr with hall | hrk
    · exact absurd hMt (by rw [hall t htW]; simp)
    · have htpicks : t ∈ picksOf q r W := by
        unfold picksOf
        exact List.mem_filterMap.mpr ⟨pr, hpr, hf⟩
      apply find?_const_of_all _ htpicks hMt
      intro u hupicks hMu
      rcases mem_picksOf hupicks with ⟨huW, pr', hpr', hfind'⟩
      have hMu' : matchPair pr'.1 pr'.2 u = true := List.find?_some hfind'
      rcases hM pr' hpr' with hall' | hrk'
      · exact absurd hMu' (by rw [hall' u huW]; simp)
      · have hrk_u : rangeOk pr'.2 u = true := by
          rw [← hrk' u huW]; exact hMu'
        have hrk_u2 : rangeOk pr.2 u = true := by
          rw [← hrk u huW]; exact hMu
        have hpr2 : pr'.2 = pr.2 :=
          rangeOk_unique (pairsOf_snd_mem hpr') (pairsOf_snd_mem hpr)
            hrk_u hrk_u2
        have hWeq : W.find? (matchPair pr'.1 pr'.2)
            = W.find? (matchPair pr.1 pr.2) := by
          apply find?_congr'
          intro x hxW
          rw [hrk' x hxW, hrk x hxW, hpr2]
        rw [hWeq, hf] at hfind'
        exact (Option.some.inj hfind').symm

theorem rrp_byresOpt_idem (q : List Nat) (r : List String) (L1 : List Video)
    (hL1r : r ≠ [] → ∀ x ∈ L1, ∃ rv, x.range = some rv ∧ rv ∈ r) :
    resolutionRangePass q r
        (byresOpt q (resolutionRangePass q r (byresOpt q L1)))
      = resolutionRangePass q r (byresOpt q L1) := by
  by_cases hqe : q.isEmpty = true
  · -- quality unset: by_resolutions is skipped
    have hq : q = [] := by simpa using hqe
    subst hq
    have hb : ∀ l : List Video, byresOpt [] l = l := fun l => rfl
    rw [hb, hb]
    by_cases hpe : (picksOf [] r L1).isEmpty = true
    · have hO : resolutionRangePass [] r L1 = L1 := by
        rw [rrp_eq, if_pos hpe]
      rw [hO]
      exact hO
    · have hO : resolutionRangePass [] r L1 = picksOf [] r L1 := by
        rw [rrp_eq, if_neg hpe]
      rw [hO]
      have hM : ∀ pr ∈ pairsOf ([] : List Nat) r,
          (∀ x ∈ L1, matchPair pr.1 pr.2 x = false) ∨
          (∀ x ∈ L1, matchPair pr.1 pr.2 x = rangeOk pr.2 x) := by
        intro pr hpr
        right
        intro x _
        rcases mem_pairsOf_nil hpr with ⟨rr, _, hpreq⟩
        rw [hpreq]
        exact matchPair_none_eq rr x
      have hXX : picksOf [] r (picksOf [] r L1) = picksOf [] r L1 := by
        unfold picksOf
        apply filterMap_congr'
        intro pr hpr
        exact picksOf_find?_flat hM hpr
      rw [rrp_eq, hXX, if_neg hpe]
  · have hq : q ≠ [] := by simpa [List.isEmpty_iff] using hqe
    have hbre : byresOpt q L1 = byResolutions q L1 := by
      unfold byresOpt
      rw [if_pos (by simpa using hqe)]
    by_cases hfb : (bigSel q L1).isEmpty = true
    · -- by_resolutions falls back: nothing matches any requested quality
      have hV : byresOpt q L1 = L1 := by
        rw [hbre, byResolutions_eq, if_pos hfb]
      rw [hV]
      have hres0 : ∀ z ∈ q, ∀ x ∈ L1, resMatches z x = false :=
        bigSel_nil_iff.mp (by simpa [List.isEmpty_iff] using hfb)
      have hM : ∀ pr ∈ pairsOf q r,
          (∀ x ∈ L1, matchPair pr.1 pr.2 x = false) ∨
          (∀ x ∈ L1, matchPair pr.1 pr.2 x = rangeOk pr.2 x) := by
        intro pr hpr
        rcases mem_pairsOf_of hpr hq with ⟨z, hz, rr, hrr, hpreq⟩
        by_cases hz0 : z = 0
        · right
          intro x _
          rw [hpreq, hz0]
          show matchPair (some 0) rr x = rangeOk rr x
          rw [matchPair_some_eq]
          simp
        · left
          intro x hx
          rw [hpreq]
          show matchPair (some z) rr x = false
          have hz0' : (z == 0) = false := by simpa using hz0
          rw [matchPair_some_eq, hres0 z hz x hx, hz0']
          simp
      by_cases hpe : (picksOf q r L1).isEmpty = true
      · have hO : resolutionRangePass q r L1 = L1 := by
          rw [rrp_eq, if_pos hpe]
        rw [hO, hV, hO]
      · have hO : resolutionRangePass q r L1 = picksOf q r L1 := by
          rw [rrp_eq, if_neg hpe]
        rw [hO]
        have hpicksres : ∀ z ∈ q, ∀ x ∈ picksOf q r L1,
            resMatches z x = false := by
          intro z hz u hu
          exact hres0 z hz u (mem_picksOf hu).1
        have hVp : byresOpt q (picksOf q r L1) = picksOf q r L1 := by
          unfold byresOpt
          rw [if_pos (by simpa using hqe), byResolutions_eq,
            if_pos (by simp [bigSel_nil_iff.mpr hpicksres])]
        rw [hVp]
        have hXX : picksOf q r (picksOf q r L1) = picksOf q r L1 := by
          unfold picksOf
          apply filterMap_congr'
          intro pr hpr
          exact picksOf_find?_flat hM hpr
        rw [rrp_eq, hXX, if_neg hpe]
    · -- main case: the grouped selection is non-empty
      have hV : byresOpt q L1 = bigSel q L1 := by
        rw [hbre, byResolutions_eq, if_neg hfb]
      rw [hV]
      obtain ⟨x₀, hx₀S⟩ : ∃ x₀, x₀ ∈ bigSel q L1 := by
        cases hS : bigSel q L1 with
        | nil => exact absurd hS (by simpa [List.isEmpty_iff] using hfb)
        | cons a l => exact ⟨a, by simp⟩
      obtain ⟨hx₀L1, z₀, hz₀, hres₀⟩ := mem_bigSel hx₀S
      obtain ⟨rr₀, hrr₀, hrk₀⟩ : ∃ rr₀ ∈ rsOpt r, rangeOk rr₀ x₀ = true := by
        by_cases hre : r = []
        · subst hre
          exact ⟨none, none_mem_rsOpt, rfl⟩
        · obtain ⟨rv, hxr, hrv⟩ := hL1r hre x₀ hx₀L1
          refine ⟨some rv, some_mem_rsOpt hrv, ?_⟩
          unfold rangeOk
          simp [hxr]
      have hpr₀P : (some z₀, rr₀) ∈ pairsOf q r := pairsOf_mem_of hz₀ hrr₀
      have hMx₀ : matchPair (some z₀) rr₀ x₀ = true := by
        rw [matchPair_some_eq]
        simp [hres₀, hrk₀]
      obtain ⟨w₀, hw₀⟩ := find?_exists_of_mem hx₀S hMx₀
      have hw₀picks : w₀ ∈ picksOf q r (bigSel q L1) := by
        unfold picksOf
        exact List.mem_filterMap.mpr ⟨(some z₀, rr₀), hpr₀P, hw₀⟩
      have hpne : ¬ (picksOf q r (bigSel q L1)).isEmpty = true := by
        simp [List.isEmpty_iff]
        exact List.ne_nil_of_mem hw₀picks
      have hO : resolutionRangePass q r (bigSel q L1)
          = picksOf q r (bigSel q L1) := by
        rw [rrp_eq, if_neg hpne]
      rw [hO]
      have hw₀S : w₀ ∈ bigSel q L1 := (mem_picksOf hw₀picks).1
      obtain ⟨_, zw, hzw, hresw⟩ := mem_bigSel hw₀S
      have hsel2 : w₀ ∈ bigSel q (picksOf q r (bigSel q L1)) := by
        unfold bigSel
        exact List.mem_flatMap.mpr
          ⟨zw, hzw, List.mem_filter.mpr ⟨hw₀picks, hresw⟩⟩
      have hVp : byresOpt q (picksOf q r (bigSel q L1))
          = bigSel q (picksOf q r (bigSel q L1)) := by
        unfold byresOpt
        rw [if_pos (by simpa using hqe), byResolutions_eq,
          if_neg (by simp [List.isEmpty_iff]; exact List.ne_nil_of_mem hsel2)]
      rw [hVp]
      have hXX : picksOf q r (bigSel q (picksOf q r (bigSel q L1)))
          = picksOf q r (bigSel q L1) := by
        unfold picksOf
        apply filterMap_congr'
        intro pr hpr
        cases hf : (bigSel q L1).find? (matchPair pr.1 pr.2) with
        | none => exact picksOf_find?_none hf
        | some t =>
          rcases mem_pairsOf_of hpr hq with ⟨qa, hqa, rr, hrr, hpreq⟩
          rw [hpreq] at hf ⊢
          exact picksOf_find?_main hqa hrr hf
      rw [rrp_eq, hXX, if_neg hpne]

theorem selectVideoPasses_idem (c : Criteria) (vids : List Video) :
    selectVideoPasses c (selectVideoPasses c vids)
      = selectVideoPasses c vids := by
  rw [selectVideoPasses_eq c vids, selectVideoPasses_eq c]
  have hOsub : ∀ x ∈ resolutionRangePass c.quality c.range_
      (byresOpt c.quality (vfChain c vids)), x ∈ vfChain c vids :=
    fun x hx => mem_byresOpt (mem_rrp hx)
  have hchain : vfChain c (resolutionRangePass c.quality c.range_
      (byresOpt c.quality (vfChain c vids)))
      = resolutionRangePass c.quality c.range_
          (byresOpt c.quality (vfChain c vids)) :=
    vfChain_eq_self (fun x hx => (mem_vfChain (hOsub x hx)).2)
  rw [hchain]
  exact rrp_byresOpt_idem c.quality c.range_ (vfChain c vids)
    (fun hr x hx => vfInv_range (mem_vfChain hx).2 hr)

/-! ## Block 5: subtitle and audio idempotence, full selection idempotence -/

theorem selectSubtitlePasses_eq (c : Criteria) (subs : List Subtitle) :
    selectSubtitlePasses c subs =
      (condFilter (!c.s_lang.isEmpty && !c.s_lang.contains "all")
        (fun x => closeMatch x.language c.s_lang) subs).filter
        (fun x => !x.forced || closeMatch x.language c.lang) := rfl

theorem selectSubtitlePasses_idem (c : Criteria) (subs : List Subtitle) :
    selectSubtitlePasses c (selectSubtitlePasses c subs)
      = selectSubtitlePasses c subs := by
  rw [selectSubtitlePasses_eq c subs, selectSubtitlePasses_eq c]
  have hmem : ∀ x ∈ (condFilter (!c.s_lang.isEmpty && !c.s_lang.contains "all")
      (fun x => closeMatch x.language c.s_lang) subs).filter
      (fun x => !x.forced || closeMatch x.language c.lang),
      ((!c.s_lang.isEmpty && !c.s_lang.contains "all") = true →
        closeMatch x.language c.s_lang = true) ∧
      (!x.forced || closeMatch x.language c.lang) = true := by
    intro x hx
    rcases List.mem_filter.mp hx with ⟨h1, h2⟩
    exact ⟨(mem_condFilter h1).2, h2⟩
  rw [condFilter_eq_self (fun x hx => (hmem x hx).1)]
  exact List.filter_eq_self.mpr (fun x hx => (hmem x hx).2)

/-- The audio filter chain before the language cap (`track_selector.py:93-101`):
descriptive exclusion, codec, bitrate, channel count. -/
def audChain (c : Criteria) (auds : List Audio) : List Audio :=
  let a1 := auds.filter (fun x => !x.descriptive)
  let a2 := condFilter c.acodec.isSome (fun x => x.codec == c.acodec) a1
  let a3 := condFilter (c.abitrate != 0)
    (fun x => match x.bitrate with
      | some b => b / 1000 == c.abitrate
      | none => false) a2
  match c.channels with
  | some ch => a3.filter (fun x =>
      match x.channels with
      | some xc => Int.ceil xc == Int.ceil ch
      | none => false)
  | none => a3

theorem selectAudioPasses_eq (c : Criteria) (auds : List Audio) :
    selectAudioPasses c auds =
      if auds.isEmpty then auds
      else if !c.lang.isEmpty && !c.lang.contains "all" then
        byLanguagePer1 Audio.language (audChain c auds) c.lang
      else audChain c auds := rfl

/-- The invariant established by the audio filter chain. -/
def AudInv (c : Criteria) (x : Audio) : Prop :=
  (!x.descriptive) = true ∧
  (c.acodec.isSome = true → (x.codec == c.acodec) = true) ∧
  ((c.abitrate != 0) = true →
    (match x.bitrate with
     | some b => b / 1000 == c.abitrate
     | none => false) = true) ∧
  (∀ ch, c.channels = some ch →
    (match x.channels with
     | some xc => Int.ceil xc == Int.ceil ch
     | none => false) = true)

theorem mem_audChain {c : Criteria} {auds : List Audio} {x : Audio}
    (h : x ∈ audChain c auds) : x ∈ auds ∧ AudInv c x := by
  unfold audChain at h
  cases hch : c.channels with
  | none =>
    rw [hch] at h
    obtain ⟨h2, hc3⟩ := mem_condFilter h
    obtain ⟨h1, hc2⟩ := mem_condFilter h2
    rcases List.mem_filter.mp h1 with ⟨h0, hd⟩
    exact ⟨h0, hd, hc2, hc3, fun ch hch' => by rw [hch] at hch'; cases hch'⟩
  | some ch =>
    rw [hch] at h
    rcases List.mem_filter.mp h with ⟨h3, hcc⟩
    obtain ⟨h2, hc3⟩ := mem_condFilter h3
    obtain ⟨h1, hc2⟩ := mem_condFilter h2
    rcases List.mem_filter.mp h1 with ⟨h0, hd⟩
    refine ⟨h0, hd, hc2, hc3, fun ch' hch' => ?_⟩
    rw [hch] at hch'
    cases Option.some.inj hch'
    exact hcc

theorem audChain_eq_self {c : Criteria} {O : List Audio}
    (h : ∀ x ∈ O, AudInv c x) : audChain c O = O := by
  unfold audChain
  cases hch : c.channels with
  | none =>
    show condFilter (c.abitrate != 0) _
      (condFilter c.acodec.isSome _ (O.filter (fun x => !x.descriptive))) = O
    rw [List.filter_eq_self.mpr (fun x hx => (h x hx).1),
      condFilter_eq_self (fun x hx => (h x hx).2.1),
      condFilter_eq_self (fun x hx => (h x hx).2.2.1)]
  | some ch =>
    show (condFilter (c.abitrate != 0) _
      (condFilter c.acodec.isSome _
        (O.filter (fun x => !x.descriptive)))).filter
        (fun x => match x.channels with
          | some xc => Int.ceil xc == Int.ceil ch
          | none => false) = O
    rw [List.filter_eq_self.mpr (fun x hx => (h x hx).1),
      condFilter_eq_self (fun x hx => (h x hx).2.1),
      condFilter_eq_self (fun x hx => (h x hx).2.2.1)]
    exact List.filter_eq_self.mpr (fun x hx => (h x hx).2.2.2 ch hch)

theorem closeMatch_single (s l : String) :
    closeMatch s [l] = decide (primaryTag s = primaryTag l) := by
  unfold closeMatch
  simp

theorem flatMap_congr' {α β : Type} {l : List α} {f g : α → List β}
    (h : ∀ a ∈ l, f a = g a) : l.flatMap f = l.flatMap g := by
  induction l with
  | nil => rfl
  | cons a rest ih =>
    rw [List.flatMap_cons, List.flatMap_cons, h a (by simp),
      ih (fun x hx => h x (by simp [hx]))]

theorem take_one_eq {α : Type} {l : List α} {x : α} (hx : x ∈ l)
    (hall : ∀ y ∈ l, y = x) : l.take 1 = [x] := by
  cases l with
  | nil => cases hx
  | cons a rest =>
    have ha : a = x := hall a (by simp)
    rw [List.take_succ_cons, List.take_zero, ha]

theorem byLanguagePer1_idem {α : Type} (getLang : α → String) (ts : List α)
    (langs : List String) :
    byLanguagePer1 getLang (byLanguagePer1 getLang ts langs) langs
      = byLanguagePer1 getLang ts langs := by
  unfold byLanguagePer1
  apply flatMap_congr'
  intro l hl
  cases hfl : ts.filter (fun t => closeMatch (getLang t) [l]) with
  | nil =>
    have hAfl : (langs.flatMap (fun l' =>
        (ts.filter (fun t => closeMatch (getLang t) [l'])).take 1)).filter
        (fun t => closeMatch (getLang t) [l]) = [] := by
      apply List.filter_eq_nil.mpr
      intro u hu
      rcases List.mem_flatMap.mp hu with ⟨l', _, hu'⟩
      have hu'' := List.mem_of_mem_take hu'
      rcases List.mem_filter.mp hu'' with ⟨huts, _⟩
      exact List.filter_eq_nil.mp hfl u huts
    rw [hAfl]
  | cons x xs =>
    have hxmem : x ∈ ts.filter (fun t => closeMatch (getLang t) [l]) := by
      rw [hfl]; simp
    rcases List.mem_filter.mp hxmem with ⟨hxts, hPx⟩
    have hxA : x ∈ langs.flatMap (fun l' =>
        (ts.filter (fun t => closeMatch (getLang t) [l'])).take 1) := by
      apply List.mem_flatMap.mpr
      refine ⟨l, hl, ?_⟩
      rw [hfl]
      simp
    rw [List.take_succ_cons, List.take_zero]
    apply take_one_eq (List.mem_filter.mpr ⟨hxA, hPx⟩)
    intro y hy
    rcases List.mem_filter.mp hy with ⟨hyA, hPy⟩
    rcases List.mem_flatMap.mp hyA with ⟨l', hl', hytake⟩
    have hyfl' := List.mem_of_mem_take hytake
    rcases List.mem_filter.mp hyfl' with ⟨hyts, hPl'⟩
    have hpt : primaryTag l' = primaryTag l := by
      have h1 := hPl'
      have h2 := hPy
      rw [closeMatch_single] at h1 h2
      rw [← of_decide_eq_true h1, of_decide_eq_true h2]
    have hfilter_eq : ts.filter (fun t => closeMatch (getLang t) [l'])
        = ts.filter (fun t => closeMatch (getLang t) [l]) := by
      apply List.filter_congr
      intro u _
      rw [closeMatch_single, closeMatch_single, hpt]
    rw [hfilter_eq, hfl, List.take_succ_cons, List.take_zero] at hytake
    simpa using hytake

theorem selectAudioPasses_idem (c : Criteria) (auds : List Audio) :
    selectAudioPasses c (selectAudioPasses c auds)
      = selectAudioPasses c auds := by
  by_cases he : auds.isEmpty = true
  · have h0 : selectAudioPasses c auds = auds := by
      rw [selectAudioPasses_eq, if_pos he]
    rw [h0, h0]
  · rw [selectAudioPasses_eq c auds, if_neg he]
    by_cases hlc : (!c.lang.isEmpty && !c.lang.contains "all") = true
    · rw [if_pos hlc]
      by_cases hAe : (byLanguagePer1 Audio.language (audChain c auds)
          c.lang).isEmpty = true
      · rw [selectAudioPasses_eq, if_pos hAe]
      · rw [selectAudioPasses_eq, if_neg hAe, if_pos hlc]
        have hmemA : ∀ x ∈ byLanguagePer1 Audio.language (audChain c auds)
            c.lang, AudInv c x := by
          intro x hx
          unfold byLanguagePer1 at hx
          rcases List.mem_flatMap.mp hx with ⟨l', _, hx'⟩
          have hx'' := List.mem_of_mem_take hx'
          rcases List.mem_filter.mp hx'' with ⟨hxchain, _⟩
          exact (mem_audChain hxchain).2
        rw [audChain_eq_self hmemA]
        exact byLanguagePer1_idem Audio.language (audChain c auds) c.lang
    · rw [if_neg hlc]
      by_cases hAe : (audChain c auds).isEmpty = true
      · rw [selectAudioPasses_eq, if_pos hAe]
      · rw [selectAudioPasses_eq, if_neg hAe, if_neg hlc]
        exact audChain_eq_self (fun x hx => (mem_audChain hx).2)

theorem selectTracks_false (c : Criteria) (t : TracksS) :
    selectTracks c false t =
      ⟨t.videos, selectAudioPasses c t.audio, t.subtitles, t.chapters⟩ := rfl

theorem selectTracks_true (c : Criteria) (t : TracksS) :
    selectTracks c true t =
      ⟨selectVideoPasses c t.videos, selectAudioPasses c t.audio,
        selectSubtitlePasses c t.subtitles, t.chapters⟩ := rfl

theorem selectTracks_idem (c : Criteria) (isME : Bool) (t : TracksS) :
    selectTracks c isME (selectTracks c isME t) = selectTracks c isME t := by
  cases isME with
  | false => simp [selectTracks_false, selectAudioPasses_idem]
  | true => simp [selectTracks_true, selectVideoPasses_idem,
      selectAudioPasses_idem, selectSubtitlePasses_idem]

theorem selectResult_eq (c : Criteria) (isME : Bool) (t : TracksS) :
    selectResult c isME t =
      if c.video_only || c.audio_only || c.subs_only || c.chapters_only then
        { videos := if c.video_only then (selectTracks c isME t).videos else []
        , audio := if c.audio_only then (selectTracks c isME t).audio else []
        , subtitles :=
            if c.subs_only then (selectTracks c isME t).subtitles else []
        , chapters :=
            if c.chapters_only then (selectTracks c isME t).chapters else [] }
      else selectTracks c isME t := rfl

/-- C8: track selection is idempotent — for every fixed criteria, title kind
and track collection, applying `TrackSelector.select` to the collection
returned by a first application yields the same collection as the first
application alone: `select(select(title, C), C) == select(title, C)`. -/
theorem select_idempotent (c : Criteria) (isME : Bool) (t : TracksS) :
    selectResult c isME (selectResult c isME t) = selectResult c isME t := by
  by_cases hof : (c.video_only || c.audio_only || c.subs_only
      || c.chapters_only) = true
  · rw [selectResult_eq c isME t, if_pos hof, selectResult_eq, if_pos hof]
    cases isME with
    | false =>
      simp only [selectTracks_false]
      by_cases hvo : c.video_only = true <;>
        by_cases hao : c.audio_only = true <;>
          by_cases hso : c.subs_only = true <;>
            by_cases hco : c.chapters_only = true <;>
              simp [hvo, hao, hso, hco, selectAudioPasses_idem]
    | true =>
      simp only [selectTracks_true]
      by_cases hvo : c.video_only = true <;>
        by_cases hao : c.audio_only = true <;>
          by_cases hso : c.subs_only = true <;>
            by_cases hco : c.chapters_only = true <;>
              simp [hvo, hao, hso, hco, selectVideoPasses_idem,
                selectAudioPasses_idem, selectSubtitlePasses_idem]
  · rw [selectResult_eq c isME t, if_neg hof, selectResult_eq, if_neg hof]
    exact selectTracks_idem c isME t

end Vindemitor
